import Mathlib

/-!
Shallow embedding of the voxel engine core (`src/engine.cpp`, `src/mesher.cpp`,
`src/base.h`) and proofs about its lighting, heightmap, chunk loading, meshing
and frame-scheduling behaviour.

Conventions used throughout:

* C++ `int` becomes `Int`; quantities that are non-negative by construction
  (light levels, coordinates inside a chunk, heights) become `Nat`.
* The packed `ChunkTensor3` index `y | (x << 8) | (z << 12)` is an injection
  of the coordinate box `x, z < 16`, `y < 256` (the power-of-two branch of
  `Tensor3::index` agrees with `y + (x * Y) + (z * X * Y)` on that box);
  a cell is represented by its coordinates (`Cell`).  Each `(diff, mask,
  test)` entry of `kLightSpread` is translated to the corresponding unit
  coordinate step, and its `(index & mask) == test` out-of-bounds check is
  translated to the equivalent "coordinate at the boundary" test.
* Dense buffers (`std::array`, `ChunkTensor3`) become total functions out of
  the index type; `phmap::flat_hash_set` values become `List`s (the theorems
  hold for every iteration order) and `phmap::flat_hash_map` values become
  `Option`-valued functions.
* Loops that mutate state in place become folds; the `while` loop of
  `Chunk::lightingStage1` becomes a fuel-indexed recursion whose `some`
  results are exactly the terminating runs.
-/

namespace VoxelsEngine

/-- The maximum light level, `kSunlightLevel` in `engine.cpp` (0xf). -/
def kSunlightLevel : Nat := 15

/-- `kChunkBits` from `base.h`. -/
def kChunkBits : Nat := 4

/-- `kChunkWidth = 1 << kChunkBits` from `base.h`. -/
def kChunkWidth : Nat := 16

/-- `kWorldHeight` from `base.h`. -/
def kWorldHeight : Nat := 256

/-- `kBuildHeight = kWorldHeight - 1` from `engine.cpp`. -/
def kBuildHeight : Nat := kWorldHeight - 1

/-- `kChunkMask = kChunkWidth - 1` from `engine.cpp`. -/
def kChunkMask : Nat := kChunkWidth - 1

/-- `kNumChunksToMeshPerFrame` from `engine.cpp`. -/
def kNumChunksToMeshPerFrame : Nat := 1

/-- `kNumChunksToLightPerFrame` from `engine.cpp`. -/
def kNumChunksToLightPerFrame : Nat := 4

/-- The `Block` enum from `base.h`. -/
inductive Block where
  | Air | Unknown | Bedrock | Bush | Dirt | Fungi | Grass
  | Rock | Sand | Snow | Stone | Trunk | Water
deriving DecidableEq

/-- `BlockData` from `mesher.h`.  The C++ field `opaque` is a Lean keyword and
is renamed `isOpaque`; `faces` entries are `MaybeMaterial` ids where
`0 = kNoMaterial` and user material `m` is stored as `m + 1`. -/
structure BlockData where
  mesh : Bool
  isOpaque : Bool
  solid : Bool
  light : Int
  faces : Fin 6 → Nat

/-- `kNoMaterial` from `mesher.h` (`MaybeMaterial` id 0). -/
def kNoMaterial : Nat := 0

/-- A registry is read through `Registry::getBlockUnsafe`, a plain table
lookup; we model it as the lookup function itself. -/
def Registry : Type := Block → BlockData

/-- `Point` from `base.h`: a 2-d chunk-grid coordinate. -/
structure Point where
  x : Int
  z : Int
deriving DecidableEq

/-- `Point::normSquared`. -/
def Point.normSquared (p : Point) : Int := p.x * p.x + p.z * p.z

/-- `Point::operator+`. -/
def Point.add (p q : Point) : Point := ⟨p.x + q.x, p.z + q.z⟩

/-- `Point::operator-`. -/
def Point.sub (p q : Point) : Point := ⟨p.x - q.x, p.z - q.z⟩

/-! ### C6: `Mesher::getFaceDir` (`mesher.cpp`) -/

/-- `Mesher::getFaceDir` from `mesher.cpp`, with the registry passed
explicitly.  The result selects whose face is drawn between two adjacent
voxels: `1` draws `block0`'s face material (`dir > 0` reads
`registry.getBlockUnsafe(block0).faces[face]`), `-1` draws `block1`'s, and
`0` draws nothing. -/
def getFaceDir (registry : Registry) (block0 block1 : Block) (face : Fin 6) : Int :=
  let data0 := registry block0
  let data1 := registry block1
  if data0.isOpaque && data1.isOpaque then 0
  else if data0.isOpaque then 1
  else if data1.isOpaque then -1
  else
    let material0 := data0.faces face
    let material1 := data1.faces face
    if material0 = material1 then 0
    else if material0 = kNoMaterial then -1
    else if material1 = kNoMaterial then 1
    else 0

/-- C6: `getFaceDir` returns 0 (no face) when both blocks are opaque; when
exactly one block is opaque the emitted face is the opaque block's, oriented
toward the non-opaque neighbour (`1` draws `block0`'s material, `-1` draws
`block1`'s); when neither is opaque the face is hidden if the two outward
face materials are equal, and when exactly one of the two materials is
`kNoMaterial` the face comes from the other block. -/
theorem getFaceDir_cases (registry : Registry) (block0 block1 : Block) (face : Fin 6) :
    ((registry block0).isOpaque = true → (registry block1).isOpaque = true →
      getFaceDir registry block0 block1 face = 0) ∧
    ((registry block0).isOpaque = true → (registry block1).isOpaque = false →
      getFaceDir registry block0 block1 face = 1) ∧
    ((registry block0).isOpaque = false → (registry block1).isOpaque = true →
      getFaceDir registry block0 block1 face = -1) ∧
    ((registry block0).isOpaque = false → (registry block1).isOpaque = false →
      ((registry block0).faces face = (registry block1).faces face →
        getFaceDir registry block0 block1 face = 0) ∧
      ((registry block0).faces face = kNoMaterial →
        (registry block1).faces face ≠ kNoMaterial →
        getFaceDir registry block0 block1 face = -1) ∧
      ((registry block1).faces face = kNoMaterial →
        (registry block0).faces face ≠ kNoMaterial →
        getFaceDir registry block0 block1 face = 1)) := by
  refine ⟨fun h0 h1 => ?_, fun h0 h1 => ?_, fun h0 h1 => ?_, fun h0 h1 => ?_⟩
  · simp [getFaceDir, h0, h1]
  · simp [getFaceDir, h0, h1]
  · simp [getFaceDir, h0, h1]
  · refine ⟨fun hm => ?_, fun hm0 hm1 => ?_, fun hm1 hm0 => ?_⟩
    · simp [getFaceDir, h0, h1, hm]
    · have hne : (registry block0).faces face ≠ (registry block1).faces face := by
        rw [hm0]; exact fun h => hm1 h.symm
      simp only [getFaceDir, h0, h1]
      simp [hne, hm0, Ne.symm hm1]
    · have hne : (registry block0).faces face ≠ (registry block1).faces face := by
        rw [hm1]; exact fun h => hm0 h
      simp only [getFaceDir, h0, h1]
      simp [hne, hm1, hm0]

/-- Witness for `getFaceDir_cases`: a registry where Stone is opaque and Air
is not, evaluated on a concrete pair. -/
def witnessRegistry : Registry := fun b =>
  match b with
  | Block.Stone => ⟨false, true, true, 0, fun _ => 2⟩
  | _ => ⟨false, false, false, 0, fun _ => 0⟩

theorem getFaceDir_cases_witness :
    getFaceDir witnessRegistry Block.Stone Block.Air 0 = 1 :=
  (getFaceDir_cases witnessRegistry Block.Stone Block.Air 0).2.1 rfl rfl

/-! ### Cells: coordinates of a packed `ChunkTensor3` index -/

/-- A cell of a chunk: the coordinates packed into a `ChunkTensor3` index
`y | (x << 8) | (z << 12)` (valid when `x, z < 16` and `y < 256`). -/
structure Cell where
  x : Nat
  y : Nat
  z : Nat
deriving DecidableEq

/-- The coordinate box of valid `ChunkTensor3` indices. -/
def Cell.inBounds (c : Cell) : Prop :=
  c.x < kChunkWidth ∧ c.y < kWorldHeight ∧ c.z < kChunkWidth

instance (c : Cell) : Decidable c.inBounds := by
  unfold Cell.inBounds; infer_instance

/-! ### C9 and C10: `World::getBlock` and `World::getLightLevel` -/

/-- The chunk state read by `Chunk::getBlock` and `Chunk::getLightLevel`:
the voxel array, the dense stage-1 light array, and the sparse
`stage2_lights` hash map (keyed in the source by the packed index). -/
structure ChunkQ where
  voxels : Cell → Block
  stage1_lights : Cell → Nat
  stage2_lights : Cell → Option Nat

/-- `Chunk::getBlock` from `engine.cpp`. -/
def ChunkQ.getBlock (c : ChunkQ) (cell : Cell) : Block :=
  c.voxels cell

/-- `Chunk::getLightLevel` from `engine.cpp`: `stage2_lights` overrides the
stage-1 value, and a decoration block (`data.mesh`) bumps the level by one,
clamped to `kSunlightLevel`. -/
def ChunkQ.getLightLevel (registry : Registry) (c : ChunkQ) (cell : Cell) : Nat :=
  let base := match c.stage2_lights cell with
    | some v => v
    | none => c.stage1_lights cell
  min (base + (if (registry (c.voxels cell)).mesh then 1 else 0)) kSunlightLevel

/-- The world state read by `World::getBlock` / `World::getLightLevel`:
`chunks` abstracts `Circle<Chunk>::get`, which returns the chunk at a grid
point or null. -/
structure WorldQ where
  registry : Registry
  chunks : Point → Option ChunkQ

/-- `World::getBlock` from `engine.cpp`.  On a two's-complement `int`,
`x >> kChunkBits` is division by 16 rounded toward negative infinity and
`x & kChunkMask` is the matching remainder in `[0, 16)`; they are translated
as `Int.ediv`/`Int.emod` by 16. -/
def World.getBlock (w : WorldQ) (x y z : Int) : Block :=
  if y < 0 then Block.Bedrock
  else if (kBuildHeight : Int) ≤ y then Block.Air
  else
    match w.chunks ⟨x.ediv 16, z.ediv 16⟩ with
    | none => Block.Unknown
    | some chunk => chunk.getBlock ⟨(x.emod 16).toNat, y.toNat, (z.emod 16).toNat⟩

/-- `World::getLightLevel` from `engine.cpp`. -/
def World.getLightLevel (w : WorldQ) (x y z : Int) : Nat :=
  if y < 0 then 0
  else if (kWorldHeight : Int) ≤ y then kSunlightLevel
  else
    match w.chunks ⟨x.ediv 16, z.ediv 16⟩ with
    | none => kSunlightLevel
    | some chunk =>
        chunk.getLightLevel w.registry ⟨(x.emod 16).toNat, y.toNat, (z.emod 16).toNat⟩

/-- C9: `World::getBlock` is total on every coordinate and returns `Bedrock`
below the world, `Air` at or above the build height, `Unknown` when the
containing chunk is not loaded, and otherwise the voxel stored in the chunk
at the in-chunk coordinates. -/
theorem getBlock_sentinels (w : WorldQ) (x y z : Int) :
    (y < 0 → World.getBlock w x y z = Block.Bedrock) ∧
    ((kBuildHeight : Int) ≤ y → World.getBlock w x y z = Block.Air) ∧
    (0 ≤ y → y < kBuildHeight → w.chunks ⟨x.ediv 16, z.ediv 16⟩ = none →
      World.getBlock w x y z = Block.Unknown) ∧
    (∀ chunk, 0 ≤ y → y < kBuildHeight →
      w.chunks ⟨x.ediv 16, z.ediv 16⟩ = some chunk →
      World.getBlock w x y z =
        chunk.voxels ⟨(x.emod 16).toNat, y.toNat, (z.emod 16).toNat⟩) := by
  refine ⟨fun h => ?_, fun h => ?_, fun h0 h1 hc => ?_, fun chunk h0 h1 hc => ?_⟩
  · simp [World.getBlock, h]
  · have : ¬y < 0 := by simp only [kBuildHeight, kWorldHeight] at h; omega
    simp [World.getBlock, this, h]
  · have hn : ¬y < 0 := by omega
    have hn2 : ¬(kBuildHeight : Int) ≤ y := by omega
    simp [World.getBlock, hn, hn2, hc]
  · have hn : ¬y < 0 := by omega
    have hn2 : ¬(kBuildHeight : Int) ≤ y := by omega
    simp [World.getBlock, hn, hn2, hc, ChunkQ.getBlock]

/-- Witness for `getBlock_sentinels`: an empty world evaluated at concrete
coordinates. -/
def witnessWorld : WorldQ := ⟨witnessRegistry, fun _ => none⟩

theorem getBlock_sentinels_witness :
    World.getBlock witnessWorld 3 (-1) 5 = Block.Bedrock ∧
    World.getBlock witnessWorld 3 300 5 = Block.Air ∧
    World.getBlock witnessWorld 3 7 5 = Block.Unknown :=
  ⟨(getBlock_sentinels witnessWorld 3 (-1) 5).1 (by decide),
   (getBlock_sentinels witnessWorld 3 300 5).2.1 (by decide),
   (getBlock_sentinels witnessWorld 3 7 5).2.2.1 (by decide) (by decide) rfl⟩

/-- C10: for any coordinate with `0 ≤ y < kWorldHeight` whose containing
chunk is not loaded, `World::getLightLevel` returns `kSunlightLevel` — the
same sentinel it returns for every `y` at or above the world top. -/
theorem getLightLevel_unloaded (w : WorldQ) (x y z : Int) :
    (0 ≤ y → y < kWorldHeight → w.chunks ⟨x.ediv 16, z.ediv 16⟩ = none →
      World.getLightLevel w x y z = kSunlightLevel) ∧
    ((kWorldHeight : Int) ≤ y → World.getLightLevel w x y z = kSunlightLevel) := by
  constructor
  · intro h0 h1 hc
    have hn : ¬y < 0 := by omega
    have hn2 : ¬(kWorldHeight : Int) ≤ y := by omega
    simp [World.getLightLevel, hn, hn2, hc]
  · intro h
    have hn : ¬y < 0 := by simp only [kWorldHeight] at h; omega
    simp [World.getLightLevel, hn, h]

theorem getLightLevel_unloaded_witness :
    World.getLightLevel witnessWorld 3 7 5 = kSunlightLevel ∧
    World.getLightLevel witnessWorld 3 256 5 = kSunlightLevel :=
  ⟨(getLightLevel_unloaded witnessWorld 3 7 5).1 (by decide) (by decide) rfl,
   (getLightLevel_unloaded witnessWorld 3 256 5).2 (by decide)⟩

/-! ### C5: `Chunk::setBlock` and `Chunk::updateHeightmap` -/

/-- The chunk state mutated by `Chunk::setBlock`; `instances` keeps the block
of each decoration entry (its renderer mesh handle is an external resource). -/
structure ChunkE where
  voxels : Cell → Block
  heightmap : Nat → Nat → Nat
  equilevels : Nat → Bool
  instances : Cell → Option Block
  stage1_dirty : List Cell
  dirty : Bool
  stage2_dirty : Bool

/-- The value `start - i` written by the downward scan in
`Chunk::updateHeightmap` when the new block is Air: the loop increments `i`
while `voxels.data[index - i - 1]` — the cell `i + 1` below `start` in the
same column, since the `y`-stride of `ChunkTensor3` is 1 — is Air, and the
heightmap is then set to `start - i`.  `scanHeight vox start` computes that
value directly by recursion on `start`. -/
def scanHeight (vox : Nat → Block) : Nat → Nat
  | 0 => 0
  | s + 1 => if vox s = Block.Air then scanHeight vox s else s + 1

/-- `Chunk::updateHeightmap` from `engine.cpp` (the locals `end = start +
count` and `height = heightmap.data[offset]` are inlined). -/
def ChunkE.updateHeightmap (c : ChunkE) (x z start count : Nat) (block : Block) :
    ChunkE :=
  if block = Block.Air ∧ start < c.heightmap x z ∧ c.heightmap x z ≤ start + count then
    { c with heightmap := fun x' z' =>
        if x' = x ∧ z' = z then scanHeight (fun y => c.voxels ⟨x, y, z⟩) start
        else c.heightmap x' z' }
  else if block ≠ Block.Air ∧ c.heightmap x z ≤ start + count then
    { c with heightmap := fun x' z' =>
        if x' = x ∧ z' = z then start + count else c.heightmap x' z' }
  else c

/-- `Chunk::updateInstance` from `engine.cpp`. -/
def ChunkE.updateInstance (registry : Registry) (c : ChunkE) (cell : Cell)
    (old_block new_block : Block) : ChunkE :=
  if (registry new_block).mesh then
    { c with instances := Function.update c.instances cell (some new_block) }
  else if (registry old_block).mesh then
    { c with instances := Function.update c.instances cell none }
  else c

/-- `Chunk::setBlock` from `engine.cpp`.  The trailing block of the source
that marks neighbouring chunks dirty mutates the neighbouring chunks through
the world, not this chunk's state, and is not part of this per-chunk
transition. -/
def ChunkE.setBlock (registry : Registry) (c : ChunkE) (x y z : Nat)
    (block : Block) : ChunkE :=
  if c.voxels ⟨x, y, z⟩ = block then c
  else
    let c3 :=
      ChunkE.updateInstance registry
        (ChunkE.updateHeightmap
          { c with
            voxels := Function.update c.voxels ⟨x, y, z⟩ block,
            stage1_dirty := c.stage1_dirty.insert ⟨x, y, z⟩,
            dirty := true, stage2_dirty := true }
          x z y 1 block)
        ⟨x, y, z⟩ (c.voxels ⟨x, y, z⟩) block
    { c3 with equilevels := Function.update c3.equilevels y false }

/-- The heightmap invariant (`spec.md` §3.4) for one column: `h` is the
smallest height such that every cell of the column at or above `h` is Air. -/
def IsColumnHeight (vox : Nat → Block) (h : Nat) : Prop :=
  (∀ y, h ≤ y → vox y = Block.Air) ∧
  ∀ h', (∀ y, h' ≤ y → vox y = Block.Air) → h ≤ h'

theorem scanHeight_le (vox : Nat → Block) (s : Nat) : scanHeight vox s ≤ s := by
  induction s with
  | zero => simp [scanHeight]
  | succ s ih =>
    simp only [scanHeight]
    split
    · omega
    · omega

theorem scanHeight_air (vox : Nat → Block) (s : Nat) :
    ∀ t, scanHeight vox s ≤ t → t < s → vox t = Block.Air := by
  induction s with
  | zero => omega
  | succ s ih =>
    intro t h1 h2
    by_cases hair : vox s = Block.Air
    · simp only [scanHeight, if_pos hair] at h1
      rcases Nat.lt_or_ge t s with hlt | hge
      · exact ih t h1 hlt
      · have : t = s := by omega
        rw [this]; exact hair
    · simp only [scanHeight, if_neg hair] at h1
      omega

theorem scanHeight_min (vox : Nat → Block) (s : Nat) :
    scanHeight vox s = 0 ∨ vox (scanHeight vox s - 1) ≠ Block.Air := by
  induction s with
  | zero => left; simp [scanHeight]
  | succ s ih =>
    by_cases hair : vox s = Block.Air
    · simpa only [scanHeight, if_pos hair] using ih
    · right
      simp only [scanHeight, if_neg hair]
      simpa using hair

/-- A column at its height: if the height is positive, the cell just below it
is not Air. -/
theorem IsColumnHeight.below_not_air {vox : Nat → Block} {h : Nat}
    (hc : IsColumnHeight vox h) (hpos : 0 < h) : vox (h - 1) ≠ Block.Air := by
  intro hair
  have : ∀ y, h - 1 ≤ y → vox y = Block.Air := by
    intro y hy
    rcases Nat.lt_or_ge y h with hlt | hge
    · have : y = h - 1 := by omega
      rw [this]; exact hair
    · exact hc.1 y hge
  have := hc.2 (h - 1) this
  omega

/-- C5: `Chunk::setBlock` preserves the heightmap invariant.  If before an
in-range call every column's heightmap entry is the smallest height with
only Air at or above it, the same holds for every column afterwards: placing
Air at the top of a column rescans downward past consecutive Air cells, and
placing a non-Air block at or above the height raises it to just above the
edit. -/
theorem updateHeightmap_voxels (c : ChunkE) (x z s cnt : Nat) (b : Block) :
    (c.updateHeightmap x z s cnt b).voxels = c.voxels := by
  unfold ChunkE.updateHeightmap
  split_ifs <;> rfl

theorem updateInstance_voxels (registry : Registry) (c : ChunkE) (cell : Cell)
    (ob nb : Block) : (c.updateInstance registry cell ob nb).voxels = c.voxels := by
  unfold ChunkE.updateInstance
  split_ifs <;> rfl

theorem updateInstance_heightmap (registry : Registry) (c : ChunkE) (cell : Cell)
    (ob nb : Block) :
    (c.updateInstance registry cell ob nb).heightmap = c.heightmap := by
  unfold ChunkE.updateInstance
  split_ifs <;> rfl

theorem updateHeightmap_heightmap (c : ChunkE) (x z s cnt : Nat) (b : Block)
    (x' z' : Nat) :
    (c.updateHeightmap x z s cnt b).heightmap x' z' =
      if x' = x ∧ z' = z then
        (if b = Block.Air ∧ s < c.heightmap x z ∧ c.heightmap x z ≤ s + cnt then
          scanHeight (fun y => c.voxels ⟨x, y, z⟩) s
        else if b ≠ Block.Air ∧ c.heightmap x z ≤ s + cnt then s + cnt
        else c.heightmap x' z')
      else c.heightmap x' z' := by
  unfold ChunkE.updateHeightmap
  by_cases hcol : x' = x ∧ z' = z
  · split_ifs <;> simp [hcol]
  · split_ifs <;> simp [hcol]

theorem setBlock_voxels (registry : Registry) (c : ChunkE) (x y z : Nat)
    (block : Block) (hsame : c.voxels ⟨x, y, z⟩ ≠ block) :
    (ChunkE.setBlock registry c x y z block).voxels =
      Function.update c.voxels ⟨x, y, z⟩ block := by
  unfold ChunkE.setBlock
  rw [if_neg hsame]
  simp only [updateInstance_voxels, updateHeightmap_voxels]

theorem setBlock_heightmap (registry : Registry) (c : ChunkE) (x y z : Nat)
    (block : Block) (hsame : c.voxels ⟨x, y, z⟩ ≠ block) (x' z' : Nat) :
    (ChunkE.setBlock registry c x y z block).heightmap x' z' =
      if x' = x ∧ z' = z then
        (if block = Block.Air ∧ y < c.heightmap x z ∧ c.heightmap x z ≤ y + 1 then
          scanHeight (fun y0 => Function.update c.voxels ⟨x, y, z⟩ block ⟨x, y0, z⟩) y
        else if block ≠ Block.Air ∧ c.heightmap x z ≤ y + 1 then y + 1
        else c.heightmap x' z')
      else c.heightmap x' z' := by
  unfold ChunkE.setBlock
  rw [if_neg hsame]
  simp only [updateInstance_heightmap]
  rw [updateHeightmap_heightmap]

theorem setBlock_heightmap_invariant (registry : Registry) (c : ChunkE)
    (x y z : Nat) (block : Block)
    (hx : x < kChunkWidth) (hz : z < kChunkWidth) (hy : y < kBuildHeight)
    (hinv : ∀ x' z',
      IsColumnHeight (fun y' => c.voxels ⟨x', y', z'⟩) (c.heightmap x' z')) :
    ∀ x' z',
      IsColumnHeight
        (fun y' => (ChunkE.setBlock registry c x y z block).voxels ⟨x', y', z'⟩)
        ((ChunkE.setBlock registry c x y z block).heightmap x' z') := by
  intro x' z'
  by_cases hsame : c.voxels ⟨x, y, z⟩ = block
  · have : ChunkE.setBlock registry c x y z block = c := by
      unfold ChunkE.setBlock
      rw [if_pos hsame]
    rw [this]
    exact hinv x' z'
  rw [setBlock_heightmap registry c x y z block hsame]
  set vox' : Cell → Block := Function.update c.voxels ⟨x, y, z⟩ block with hvox'
  have hvox_rw : (ChunkE.setBlock registry c x y z block).voxels = vox' :=
    setBlock_voxels registry c x y z block hsame
  rw [hvox_rw]
  have hvox_self : vox' ⟨x, y, z⟩ = block := by simp [hvox']
  by_cases hcol : x' = x ∧ z' = z
  case neg =>
    -- A column other than the edited one is untouched.
    rw [if_neg hcol]
    have hvcol : ∀ y', vox' ⟨x', y', z'⟩ = c.voxels ⟨x', y', z'⟩ := by
      intro y'
      have hne : (⟨x', y', z'⟩ : Cell) ≠ ⟨x, y, z⟩ := by
        intro hcell
        exact hcol ⟨congrArg Cell.x hcell, congrArg Cell.z hcell⟩
      simp [hvox', Function.update_apply, hne]
    have hcold := hinv x' z'
    constructor
    · intro y' hy'
      show vox' ⟨x', y', z'⟩ = Block.Air
      rw [hvcol y']
      exact hcold.1 y' hy'
    · intro h'' hall
      apply hcold.2
      intro y' hy'
      show c.voxels ⟨x', y', z'⟩ = Block.Air
      rw [← hvcol y']
      exact hall y' hy'
  case pos =>
    obtain ⟨hex, hez⟩ := hcol
    have hex' : x = x' := hex.symm
    have hez' : z = z' := hez.symm
    subst hex'
    subst hez'
    rw [if_pos ⟨rfl, rfl⟩]
    obtain ⟨hA, hMin⟩ := hinv x z
    have hvcol : ∀ y', vox' ⟨x, y', z⟩ =
        if y' = y then block else c.voxels ⟨x, y', z⟩ := by
      intro y'
      by_cases hyy : y' = y
      · subst hyy; simp [hvox']
      · have hne : (⟨x, y', z⟩ : Cell) ≠ ⟨x, y, z⟩ := by
          intro hcell; exact hyy (congrArg Cell.y hcell)
        simp [hvox', Function.update_apply, hne, hyy]
    have hbelow : 0 < c.heightmap x z →
        vox' ⟨x, c.heightmap x z - 1, z⟩ ≠ Block.Air →
        ∀ h'', (∀ y0, h'' ≤ y0 → vox' ⟨x, y0, z⟩ = Block.Air) →
          c.heightmap x z ≤ h'' := by
      intro hpos hnon h'' hall
      by_contra hcon
      exact hnon (hall (c.heightmap x z - 1) (by omega))
    by_cases hairb : block = Block.Air
    case pos =>
      subst hairb
      -- The old cell was not Air, so the edit is strictly below the height.
      have hyh : y < c.heightmap x z := by
        by_contra hge
        exact hsame (hA y (by omega))
      by_cases htop : c.heightmap x z ≤ y + 1
      case pos =>
        -- `height = y + 1`: the top block was removed; the scan runs.
        rw [if_pos ⟨rfl, hyh, htop⟩]
        constructor
        · intro y' hy'
          show vox' ⟨x, y', z⟩ = Block.Air
          rcases Nat.lt_or_ge y' y with hlt | hge
          · exact scanHeight_air _ y y' hy' hlt
          · rcases Nat.eq_or_lt_of_le hge with heq | hgt
            · rw [hvcol y', if_pos heq.symm]
            · rw [hvcol y', if_neg (by omega)]
              exact hA y' (by omega)
        · intro h'' hall
          rcases scanHeight_min (fun y0 => vox' ⟨x, y0, z⟩) y with hzero | hnon
          · omega
          · by_contra hcon
            apply hnon
            apply hall
            have hle := scanHeight_le (fun y0 => vox' ⟨x, y0, z⟩) y
            omega
      case neg =>
        -- The edit is buried below the surface: the height does not change.
        rw [if_neg (fun hcl => htop hcl.2.2), if_neg (fun hcl => hcl.1 rfl)]
        constructor
        · intro y' hy'
          show vox' ⟨x, y', z⟩ = Block.Air
          rw [hvcol y', if_neg (by omega)]
          exact hA y' hy'
        · intro h'' hall
          refine hbelow (by omega) ?_ h'' hall
          rw [hvcol (c.heightmap x z - 1), if_neg (by omega)]
          exact IsColumnHeight.below_not_air ⟨hA, hMin⟩ (by omega)
    case neg =>
      by_cases hraise : c.heightmap x z ≤ y + 1
      case pos =>
        -- A non-Air block at or above the height: raise it to `y + 1`.
        rw [if_neg (fun hcl => hairb hcl.1), if_pos ⟨hairb, hraise⟩]
        constructor
        · intro y' hy'
          show vox' ⟨x, y', z⟩ = Block.Air
          rw [hvcol y', if_neg (by omega)]
          exact hA y' (by omega)
        · intro h'' hall
          have hself : vox' ⟨x, y, z⟩ ≠ Block.Air := by
            rw [hvox_self]; exact hairb
          by_contra hcon
          exact hself (hall y (by omega))
      case neg =>
        -- A non-Air block strictly below the height: no change.
        rw [if_neg (fun hcl => hraise hcl.2.2), if_neg (fun hcl => hraise hcl.2)]
        constructor
        · intro y' hy'
          show vox' ⟨x, y', z⟩ = Block.Air
          rw [hvcol y', if_neg (by omega)]
          exact hA y' hy'
        · intro h'' hall
          refine hbelow (by omega) ?_ h'' hall
          rw [hvcol (c.heightmap x z - 1), if_neg (by omega)]
          exact IsColumnHeight.below_not_air ⟨hA, hMin⟩ (by omega)

/-- Witness chunk for `setBlock_heightmap_invariant`: all Air, heightmap 0. -/
def witnessChunkE : ChunkE :=
  ⟨fun _ => Block.Air, fun _ _ => 0, fun _ => true, fun _ => none, [], false, false⟩

theorem setBlock_heightmap_invariant_witness :
    IsColumnHeight
      (fun y' =>
        (ChunkE.setBlock witnessRegistry witnessChunkE 3 5 7 Block.Stone).voxels
          ⟨3, y', 7⟩)
      ((ChunkE.setBlock witnessRegistry witnessChunkE 3 5 7 Block.Stone).heightmap
        3 7) :=
  setBlock_heightmap_invariant witnessRegistry witnessChunkE 3 5 7 Block.Stone
    (by decide) (by decide) (by decide)
    (fun x' z' => ⟨fun y hy => rfl, fun h' hall => Nat.zero_le h'⟩) 3 7

/-! ### The `kLightSpread` directions

The six `kLightSpread` entries of `engine.cpp` are `(diff, mask, test)`
triples over the packed index; each one decodes to a unit step along one
axis together with an out-of-bounds guard:

* `{-0x0100, 0x0f00, 0x0000}`: `x - 1`, guard `x = 0`;
* `{+0x0100, 0x0f00, 0x0f00}`: `x + 1`, guard `x = 15`;
* `{-0x1000, 0xf000, 0x0000}`: `z - 1`, guard `z = 0`;
* `{+0x1000, 0xf000, 0xf000}`: `z + 1`, guard `z = 15`;
* `{-0x0001, 0x00ff, 0x0000}`: `y - 1`, guard `y = 0`;
* `{+0x0001, 0x00ff, 0x00ff}`: `y + 1`, guard `y = 255`.
-/

/-- One `kLightSpread` entry, named by its direction. -/
inductive Spread where
  | xneg | xpos | zneg | zpos | yneg | ypos
deriving DecidableEq

/-- `kLightSpread` in source order. -/
def kLightSpreadList : List Spread :=
  [.xneg, .xpos, .zneg, .zpos, .yneg, .ypos]

/-- The first four (horizontal) entries of `kLightSpread`, used by
`lightingInit` and the stage-2 seeding loops. -/
def kHSpreadList : List Spread := [.xneg, .xpos, .zneg, .zpos]

/-- The guard `(index & spread.mask) == spread.test`: the cell lies on the
chunk boundary in the spread's direction, so `index + diff` would leave the
chunk. -/
def Spread.atBound (sp : Spread) (c : Cell) : Bool :=
  match sp with
  | .xneg => c.x = 0
  | .xpos => c.x = kChunkWidth - 1
  | .zneg => c.z = 0
  | .zpos => c.z = kChunkWidth - 1
  | .yneg => c.y = 0
  | .ypos => c.y = kWorldHeight - 1

/-- `index + spread.diff` (meaningful when the guard fails; the truncated
`Nat` subtraction only occurs at a boundary the guard excludes). -/
def Spread.step (sp : Spread) (c : Cell) : Cell :=
  match sp with
  | .xneg => ⟨c.x - 1, c.y, c.z⟩
  | .xpos => ⟨c.x + 1, c.y, c.z⟩
  | .zneg => ⟨c.x, c.y, c.z - 1⟩
  | .zpos => ⟨c.x, c.y, c.z + 1⟩
  | .yneg => ⟨c.x, c.y - 1, c.z⟩
  | .ypos => ⟨c.x, c.y + 1, c.z⟩

/-- `index ^ spread.mask` for a horizontal spread: the 4-bit x or z field is
complemented, i.e. a boundary coordinate flips to the opposite boundary
(`15 - v` equals `v ^ 0xf` for `v < 16`; stage 2 applies this to boundary
cells only). -/
def Spread.flip (sp : Spread) (c : Cell) : Cell :=
  match sp with
  | .xneg | .xpos => ⟨(kChunkWidth - 1) - c.x, c.y, c.z⟩
  | .zneg | .zpos => ⟨c.x, c.y, (kChunkWidth - 1) - c.z⟩
  | .yneg | .ypos => c

/-- The chunk-delta x-component of a horizontal spread
(`dx = spread.mask == 0x0f00 ? spread.diff >> 8 : 0`). -/
def Spread.dx : Spread → Int
  | .xneg => -1
  | .xpos => 1
  | _ => 0

/-- The chunk-delta z-component of a horizontal spread
(`dz = spread.mask == 0xf000 ? spread.diff >> 12 : 0`). -/
def Spread.dz : Spread → Int
  | .zneg => -1
  | .zpos => 1
  | _ => 0

/-! ### C1 and C3: `Chunk::lightingStage2` -/

/-- A stage-2 location: the source packs it as
`index | (cx << 16) | (cz << 18)` where `(cx, cz) = (delta.x + 1,
delta.z + 1) ∈ {0, 1, 2}²` names a chunk of the 3×3 zone
(`getIndex(delta) = (delta.x + 1) | ((delta.z + 1) << 2)`). -/
structure Loc where
  cx : Nat
  cz : Nat
  cell : Cell
deriving DecidableEq

/-- `kZone` from `engine.cpp`: the center chunk delta followed by the 8
neighbour deltas. -/
def kZoneList : List (Int × Int) :=
  [(0, 0), (-1, 0), (1, 0), (0, -1), (0, 1), (-1, -1), (-1, 1), (1, -1), (1, 1)]

/-- The `distance` helper of `lightingStage2`, translated literally
(including `x - 31` in the `cx = 2` case, which makes the resulting
"distance" negative there and the pruning test vacuous). -/
def distanceLoc (l : Loc) : Int :=
  (if l.cx = 0 then 16 - (l.cell.x : Int)
   else if l.cx = 1 then 0 else (l.cell.x : Int) - 31) +
  (if l.cz = 0 then 16 - (l.cell.z : Int)
   else if l.cz = 1 then 0 else (l.cell.z : Int) - 31)

/-- The `shift` helper of `lightingStage2`: move a location one step; on an
x/z chunk-boundary crossing the zone coordinate changes and the boundary
coordinate flips (`(location & 0xffff) ^ mask`); `none` when the step leaves
the y-range or the 3×3 zone (the source returns `-1`). -/
def shiftLoc (sp : Spread) (l : Loc) : Option Loc :=
  if ¬ sp.atBound l.cell then some ⟨l.cx, l.cz, sp.step l.cell⟩
  else
    match sp with
    | .yneg | .ypos => none
    | .xneg => if l.cx = 0 then none else some ⟨l.cx - 1, l.cz, Spread.flip .xneg l.cell⟩
    | .xpos => if l.cx + 1 ≤ 2 then some ⟨l.cx + 1, l.cz, Spread.flip .xpos l.cell⟩ else none
    | .zneg => if l.cz = 0 then none else some ⟨l.cx, l.cz - 1, Spread.flip .zneg l.cell⟩
    | .zpos => if l.cz + 1 ≤ 2 then some ⟨l.cx, l.cz + 1, Spread.flip .zpos l.cell⟩ else none

/-- The read-only inputs of one `lightingStage2` call.  Each chunk of the
3×3 zone contributes its voxels (only opacity is read), its heightmap and
its sparse `stage1_edges` set (a list: one iteration order of the hash set).
The nine `stage1_lights` arrays, which stage 2 mutates in place, are viewed
as a single map from locations to levels (`lights0` is their state on
entry), and `stage2_lights0` is the center chunk's `stage2_lights` map on
entry. -/
structure ZoneConfig where
  registry : Registry
  voxels : Loc → Block
  heightmap : Nat → Nat → Nat → Nat → Nat
  edges : Nat → Nat → List Cell
  lights0 : Loc → Nat
  stage2_lights0 : Cell → Option Nat

/-- The mutable state threaded through one `lightingStage2` call: the nine
in-place mutated `stage1_lights` arrays, the `kLightDeltas` vector (in push
order) and the `kLightBuffers` array. -/
structure ZoneState where
  lights : Loc → Nat
  deltas : List (Loc × Nat)
  buffers : Nat → List Loc

/-- One in-place light write plus its `kLightDeltas` record: every
`stage1_lights` store in `lightingStage2` is immediately followed by
`kLightDeltas.push_back({location, previous_value})`. -/
def ZoneState.logWrite (s : ZoneState) (loc : Loc) (level : Nat) : ZoneState :=
  { s with
    lights := Function.update s.lights loc level,
    deltas := s.deltas ++ [(loc, s.lights loc)] }

/-- The `propagate` lambda of `lightingStage2`.  The body of the main
bucketed loop performs the identical update (same guards, same delta record,
and the `next` buffer `kLightBuffers[max - level + 1]` equals
`kLightBuffers[kSunlightLevel - level - 1]` pushed here), so this function
is used for both.  When the seeding loop calls this with
`light[index] - 1` and `light[index] = 0`, the C++ `level` is `-1` and the
first guard returns; the truncated `Nat` value `0` takes the same branch. -/
def propagate (cfg : ZoneConfig) (s : ZoneState) (level : Nat) (nloc : Loc) :
    ZoneState :=
  if level ≤ s.lights nloc then s
  else if s.lights nloc = 0 ∧ (cfg.registry (cfg.voxels nloc)).isOpaque then s
  else
    let s1 := s.logWrite nloc level
    if level ≤ 1 then s1
    else
      { s1 with
        buffers :=
          Function.update s1.buffers (kSunlightLevel - level - 1)
            (s1.buffers (kSunlightLevel - level - 1) ++ [nloc]) }

/-- The source/target columns of the heightmap-based seeding: for border
column `j`, `source = spread.test` selects the boundary coordinate of the
source chunk, `target = source ^ mask` the opposite boundary of the
neighbour, and `stride` walks the other horizontal axis. -/
def seedSrcCol : Spread → Nat → Nat × Nat
  | .xneg, j => (0, j)
  | .xpos, j => (kChunkWidth - 1, j)
  | .zneg, j => (j, 0)
  | .zpos, j => (j, kChunkWidth - 1)
  | _, j => (j, j)

/-- Target columns for the heightmap-based seeding (see `seedSrcCol`). -/
def seedTgtCol : Spread → Nat → Nat × Nat
  | .xneg, j => (kChunkWidth - 1, j)
  | .xpos, j => (0, j)
  | .zneg, j => (j, kChunkWidth - 1)
  | .zpos, j => (j, 0)
  | _, j => (j, j)

/-- One iteration of the seeding double loop of `lightingStage2` (a zone
chunk `d` and one of the four horizontal spreads): first propagate from the
chunk's sparse `stage1_edges` into the adjacent chunk, then propagate
full-strength sunlight across each border column's height gap. -/
def seedOne (cfg : ZoneConfig) (d : Int × Int) (sp : Spread) (s : ZoneState) :
    ZoneState :=
  if ¬(-1 ≤ d.1 + sp.dx ∧ d.1 + sp.dx ≤ 1 ∧ -1 ≤ d.2 + sp.dz ∧ d.2 + sp.dz ≤ 1)
  then s
  else
    let scx := (d.1 + 1).toNat
    let scz := (d.2 + 1).toNat
    let ncx := (d.1 + sp.dx + 1).toNat
    let ncz := (d.2 + sp.dz + 1).toNat
    let s1 := (cfg.edges scx scz).foldl
      (fun s cell =>
        if sp.atBound cell then
          propagate cfg s (s.lights ⟨scx, scz, cell⟩ - 1) ⟨ncx, ncz, sp.flip cell⟩
        else s) s
    (List.range kChunkWidth).foldl
      (fun s j =>
        let sc := seedSrcCol sp j
        let tc := seedTgtCol sp j
        (List.range' (cfg.heightmap scx scz sc.1 sc.2)
            (cfg.heightmap ncx ncz tc.1 tc.2 - cfg.heightmap scx scz sc.1 sc.2)).foldl
          (fun s y =>
            propagate cfg s (kSunlightLevel - 1) ⟨ncx, ncz, ⟨tc.1, y, tc.2⟩⟩) s) s1

/-- The descending level sequence `max, max - 1, …, 1` of the main loop,
with `max = kSunlightLevel - 2`. -/
def levels2List : List Nat :=
  (List.range (kSunlightLevel - 2)).map (fun i => (kSunlightLevel - 2) - i)

/-- One location visit of the main bucketed loop of `lightingStage2`: skip
when pruned by `distance` or when the cell no longer holds the bucket's
level, otherwise run the shared update (see `propagate`) on each of the six
shifted neighbours. -/
def stage2Visit (cfg : ZoneConfig) (level : Nat) (s : ZoneState) (loc : Loc) :
    ZoneState :=
  if (level : Int) < distanceLoc loc then s
  else if s.lights loc ≠ level + 1 then s
  else
    kLightSpreadList.foldl
      (fun s sp =>
        match shiftLoc sp loc with
        | none => s
        | some nloc => propagate cfg s level nloc) s

/-- The mutation phase of `Chunk::lightingStage2`: clear the buffers and
deltas, run the seeding loops over the zone, then the bucketed
propagation. -/
def lightingStage2Core (cfg : ZoneConfig) : ZoneState :=
  levels2List.foldl
    (fun s level =>
      (s.buffers (kSunlightLevel - 2 - level)).foldl (stage2Visit cfg level) s)
    (kZoneList.foldl
      (fun s d => kHSpreadList.foldl (fun s sp => seedOne cfg d sp s) s)
      ⟨cfg.lights0, [], fun _ => []⟩)

/-- The reverse replay of `kLightDeltas` at the end of `lightingStage2`:
iterate the deltas from the last pushed to the first, storing the recorded
previous value back into the owning chunk's `stage1_lights`. -/
def restoreDeltas (ds : List (Loc × Nat)) (l : Loc → Nat) : Loc → Nat :=
  ds.reverse.foldl (fun l d => Function.update l d.1 d.2) l

/-- The result of one `Chunk::lightingStage2` call. -/
structure Stage2Result where
  stage2_lights : Cell → Option Nat
  lights : Loc → Nat
  stage2_dirty : Bool

/-- `Chunk::lightingStage2` from `engine.cpp`: after the early-out on
`!(ready && stage2_dirty)`, mutate the zone (`lightingStage2Core`), copy the
center chunk's delta'd entries into `stage2_lights` (reading the mutated
`stage1_lights`), replay the deltas in reverse, and clear `stage2_dirty`. -/
def lightingStage2 (cfg : ZoneConfig) (ready stage2_dirty : Bool) : Stage2Result :=
  if ¬(ready ∧ stage2_dirty) then ⟨cfg.stage2_lights0, cfg.lights0, stage2_dirty⟩
  else
    ⟨(lightingStage2Core cfg).deltas.foldl
        (fun out d =>
          if d.1.cx = 1 ∧ d.1.cz = 1
          then Function.update out d.1.cell (some ((lightingStage2Core cfg).lights d.1))
          else out)
        (fun _ => none),
      restoreDeltas (lightingStage2Core cfg).deltas (lightingStage2Core cfg).lights,
      false⟩

theorem foldl_preserves {σ α : Type} (P : σ → Prop)
    (f : σ → α → σ) (hf : ∀ s a, P s → P (f s a)) :
    ∀ (l : List α) (s : σ), P s → P (l.foldl f s) := by
  intro l
  induction l with
  | nil => intro s hs; exact hs
  | cons a t ih => intro s hs; exact ih _ (hf s a hs)

theorem seedOne_preserves (cfg : ZoneConfig) (d : Int × Int) (sp : Spread)
    (P : ZoneState → Prop)
    (hp : ∀ s level nloc, P s → P (propagate cfg s level nloc)) :
    ∀ s, P s → P (seedOne cfg d sp s) := by
  intro s hs
  unfold seedOne
  split_ifs with h1
  · refine foldl_preserves P _ ?_ _ _ ?_
    · intro s j hsj
      refine foldl_preserves P _ ?_ _ _ hsj
      intro s y hsy
      exact hp _ _ _ hsy
    · refine foldl_preserves P _ ?_ _ _ hs
      intro s cell hsc
      split_ifs
      · exact hp _ _ _ hsc
      · exact hsc
  · exact hs

theorem stage2Visit_preserves (cfg : ZoneConfig) (level : Nat)
    (P : ZoneState → Prop)
    (hp : ∀ s level nloc, P s → P (propagate cfg s level nloc)) :
    ∀ s loc, P s → P (stage2Visit cfg level s loc) := by
  intro s loc hs
  unfold stage2Visit
  split_ifs with h1 h2
  · exact hs
  · exact hs
  · refine foldl_preserves P _ ?_ _ _ hs
    intro s sp hsp
    match hsh : shiftLoc sp loc with
    | none => simpa [hsh] using hsp
    | some nloc => simpa [hsh] using hp _ _ _ hsp

theorem lightingStage2Core_preserves (cfg : ZoneConfig) (P : ZoneState → Prop)
    (hp : ∀ s level nloc, P s → P (propagate cfg s level nloc))
    (hinit : P ⟨cfg.lights0, [], fun _ => []⟩) :
    P (lightingStage2Core cfg) := by
  unfold lightingStage2Core
  refine foldl_preserves P _ ?_ _ _ ?_
  · intro s level hs
    refine foldl_preserves P _ ?_ _ _ hs
    intro s loc hsl
    exact stage2Visit_preserves cfg level P hp s loc hsl
  · refine foldl_preserves P _ ?_ _ _ hinit
    intro s d hsd
    refine foldl_preserves P _ ?_ _ _ hsd
    intro s sp hsp
    exact seedOne_preserves cfg d sp P hp s hsp

theorem restore_append_write (ds : List (Loc × Nat)) (l : Loc → Nat)
    (loc : Loc) (v : Nat) :
    restoreDeltas (ds ++ [(loc, l loc)]) (Function.update l loc v) =
      restoreDeltas ds l := by
  unfold restoreDeltas
  rw [List.reverse_append, List.reverse_singleton]
  simp only [List.singleton_append, List.foldl_cons]
  rw [Function.update_idem, Function.update_eq_self]

/-- The undo-journal invariant of stage 2: replaying the recorded deltas in
reverse over the current lights restores the entry state. -/
def Undoes (cfg : ZoneConfig) (s : ZoneState) : Prop :=
  restoreDeltas s.deltas s.lights = cfg.lights0

theorem propagate_undoes (cfg : ZoneConfig) (level : Nat) (nloc : Loc)
    {s : ZoneState} (h : Undoes cfg s) :
    Undoes cfg (propagate cfg s level nloc) := by
  unfold propagate
  split_ifs with h1 h2 h3
  · exact h
  · exact h
  · unfold Undoes ZoneState.logWrite at *
    simpa [restore_append_write] using h
  · unfold Undoes ZoneState.logWrite at *
    simpa [restore_append_write] using h

/-- C1: when `Chunk::lightingStage2` returns, the `stage1_lights` array of
every chunk of the 3×3 zone is byte-for-byte equal to its value on entry:
each in-place store was journaled in `kLightDeltas` and the reverse replay
at the end of the call undoes all of them (the early `!(ready &&
stage2_dirty)` exit touches nothing). -/
theorem lightingStage2_restores_stage1 (cfg : ZoneConfig) (ready sd : Bool) :
    (lightingStage2 cfg ready sd).lights = cfg.lights0 := by
  have hinit : Undoes cfg ⟨cfg.lights0, [], fun _ => []⟩ := by
    unfold Undoes restoreDeltas
    simp
  by_cases h : (ready : Prop) ∧ (sd : Prop)
  · unfold lightingStage2
    simp only [if_neg (not_not_intro h)]
    show restoreDeltas (lightingStage2Core cfg).deltas (lightingStage2Core cfg).lights =
      cfg.lights0
    exact lightingStage2Core_preserves cfg (Undoes cfg)
      (fun s level nloc hs => propagate_undoes cfg level nloc hs) hinit
  · unfold lightingStage2
    simp only [if_pos h]

/-- The delta-log tracking invariant of stage 2: a location's light differs
from its entry value exactly when the location appears in the delta log, and
then it is strictly greater (every store writes a strictly larger level). -/
def Tracks (cfg : ZoneConfig) (s : ZoneState) : Prop :=
  ∀ loc : Loc,
    (loc ∈ s.deltas.map Prod.fst → cfg.lights0 loc < s.lights loc) ∧
    (loc ∉ s.deltas.map Prod.fst → s.lights loc = cfg.lights0 loc)

theorem propagate_tracks (cfg : ZoneConfig) (level : Nat) (nloc : Loc)
    {s : ZoneState} (h : Tracks cfg s) :
    Tracks cfg (propagate cfg s level nloc) := by
  have hstep : ¬ level ≤ s.lights nloc →
      Tracks cfg (s.logWrite nloc level) := by
    intro h1 loc
    unfold ZoneState.logWrite
    simp only [List.map_append, List.map_cons, List.map_nil, List.mem_append,
      List.mem_singleton]
    by_cases hl : loc = nloc
    · subst hl
      refine ⟨fun _ => ?_, fun hn => absurd (Or.inr rfl) hn⟩
      rw [Function.update_same]
      by_cases hm : loc ∈ s.deltas.map Prod.fst
      · have := (h loc).1 hm
        omega
      · have := (h loc).2 hm
        omega
    · constructor
      · intro hmem
        rw [Function.update_noteq hl]
        rcases hmem with hm | hm
        · exact (h loc).1 hm
        · exact absurd hm hl
      · intro hnmem
        rw [Function.update_noteq hl]
        exact (h loc).2 (fun hm => hnmem (Or.inl hm))
  unfold propagate
  split_ifs with h1 h2 h3
  · exact h
  · exact h
  · exact hstep h1
  · intro loc
    exact hstep h1 loc

theorem lightingStage2Core_tracks (cfg : ZoneConfig) :
    Tracks cfg (lightingStage2Core cfg) :=
  lightingStage2Core_preserves cfg (Tracks cfg)
    (fun s level nloc hs => propagate_tracks cfg level nloc hs)
    (fun loc => ⟨fun hm => by simp at hm, fun _ => rfl⟩)

theorem outmap_spec (lights : Loc → Nat) (ds : List (Loc × Nat)) :
    ∀ (out0 : Cell → Option Nat) (cell : Cell),
      (ds.foldl
        (fun (out : Cell → Option Nat) (d : Loc × Nat) =>
          if d.1.cx = 1 ∧ d.1.cz = 1
          then Function.update out d.1.cell (some (lights d.1))
          else out) out0) cell =
      if (⟨1, 1, cell⟩ : Loc) ∈ ds.map Prod.fst then some (lights ⟨1, 1, cell⟩)
      else out0 cell := by
  induction ds with
  | nil => intro out0 cell; simp
  | cons d t ih =>
    intro out0 cell
    simp only [List.foldl_cons, List.map_cons, List.mem_cons]
    rw [ih]
    by_cases hmem : (⟨1, 1, cell⟩ : Loc) ∈ t.map Prod.fst
    · simp [hmem]
    · by_cases hd : d.1 = (⟨1, 1, cell⟩ : Loc)
      · rw [if_neg hmem, if_pos (Or.inl hd.symm)]
        have hcx : d.1.cx = 1 := by rw [hd]
        have hcz : d.1.cz = 1 := by rw [hd]
        have hcc : d.1.cell = cell := by rw [hd]
        rw [if_pos ⟨hcx, hcz⟩, hcc, Function.update_same, hd]
      · have hne : ¬((⟨1, 1, cell⟩ : Loc) = d.1 ∨
            (⟨1, 1, cell⟩ : Loc) ∈ t.map Prod.fst) := by
          rintro (hc | hc)
          · exact hd hc.symm
          · exact hmem hc
        rw [if_neg hmem, if_neg hne]
        split_ifs with hc
        · have hcell : ¬(cell = d.1.cell) := by
            intro hcc
            apply hd
            have : d.1 = ⟨d.1.cx, d.1.cz, d.1.cell⟩ := rfl
            rw [this, hc.1, hc.2, ← hcc]
          rw [Function.update_apply, if_neg hcell]
        · rfl

/-- C3 is stated against the value `stage1_lights` held before the call; the
code instead copies the mutated value (`output[index] = input[index]` runs
before the reverse replay).  Concrete zone: the east neighbour has a single
edge cell at `(x = 0, y = 5, z = 8)` with stage-1 light 2, everything else
dark, all heightmaps 0 and no opaque blocks. -/
def cexZoneConfig : ZoneConfig where
  registry := fun _ => ⟨false, false, false, 0, fun _ => 0⟩
  voxels := fun _ => Block.Air
  heightmap := fun _ _ _ _ => 0
  edges := fun cx cz => if cx = 2 ∧ cz = 1 then [⟨0, 5, 8⟩] else []
  lights0 := fun loc => if loc = ⟨2, 1, ⟨0, 5, 8⟩⟩ then 2 else 0
  stage2_lights0 := fun _ => none

set_option maxRecDepth 100000 in
set_option maxHeartbeats 1000000 in
/-- Counterexample to C3 as stated: stage 2 spreads light 1 into the center
cell `(15, 5, 8)` whose stage-1 value on entry was 0, and `stage2_lights`
maps that index to the new value 1, not to the old value 0. -/
theorem stage2_lights_old_value_counterexample :
    (lightingStage2 cexZoneConfig true true).stage2_lights ⟨15, 5, 8⟩ = some 1 ∧
    cexZoneConfig.lights0 ⟨1, 1, ⟨15, 5, 8⟩⟩ = 0 ∧ (1 : Nat) ≠ 0 := by
  refine ⟨?_, by decide, by decide⟩
  decide

/-- C3 (amended): when `Chunk::lightingStage2` runs (`ready` and
`stage2_dirty` both set), the resulting `stage2_lights` map contains exactly
the center-chunk indices whose stage-1 light was changed by the stage-2
propagation, and it maps each such index to the new propagated value — the
value the mutated `stage1_lights` held when the copy ran, before the reverse
replay restored the array — not to the old stage-1 value. -/
theorem stage2_lights_characterization (cfg : ZoneConfig) (cell : Cell) (v : Nat) :
    (lightingStage2 cfg true true).stage2_lights cell = some v ↔
      ((lightingStage2Core cfg).lights ⟨1, 1, cell⟩ ≠ cfg.lights0 ⟨1, 1, cell⟩ ∧
        v = (lightingStage2Core cfg).lights ⟨1, 1, cell⟩) := by
  have htr := lightingStage2Core_tracks cfg ⟨1, 1, cell⟩
  unfold lightingStage2
  rw [if_neg (by simp)]
  simp only
  rw [outmap_spec]
  by_cases hm : (⟨1, 1, cell⟩ : Loc) ∈ (lightingStage2Core cfg).deltas.map Prod.fst
  · rw [if_pos hm]
    have hlt := htr.1 hm
    constructor
    · intro hv
      refine ⟨by omega, ?_⟩
      exact (Option.some_injective _ hv).symm
    · intro ⟨_, hv⟩
      rw [hv]
  · rw [if_neg hm]
    have heq := htr.2 hm
    constructor
    · intro hv; exact absurd hv (by simp)
    · intro ⟨hne, _⟩; exact absurd heq hne

/-! ### C2 and C4: `Chunk::lightingStage1` -/

/-- The read-only inputs of `Chunk::lightingStage1`. -/
structure Stage1Config where
  registry : Registry
  voxels : Cell → Block
  point_lights : Cell → Option Nat
  heightmap : Nat → Nat → Nat

/-- The in-chunk cardinal neighbours of a cell, in `kLightSpread` order: the
loops in `query` and `enqueue` skip a spread when `(index & spread.mask) ==
spread.test` and otherwise use `index + spread.diff`. -/
def neighborsOf (c : Cell) : List Cell :=
  (kLightSpreadList.filter (fun sp => ! sp.atBound c)).map (fun sp => sp.step c)

/-- The `query` lambda of `lightingStage1`: `0` for a light-blocking block
(`data.light < 0`), full sunlight at or above the heightmap, otherwise
`max_neighbor - 1` where `max_neighbor` starts at `base + 1` (`base` the max
of the block's emission and the point light) and takes in the in-chunk
cardinal neighbours' current lights. -/
def query (cfg : Stage1Config) (lights : Cell → Nat) (c : Cell) : Nat :=
  if (cfg.registry (cfg.voxels c)).light < 0 then 0
  else if cfg.heightmap c.x c.z ≤ c.y then kSunlightLevel
  else
    (neighborsOf c).foldl (fun m n => max m (lights n))
      (max (cfg.registry (cfg.voxels c)).light.toNat ((cfg.point_lights c).getD 0) + 1)
      - 1

/-- `maxUpdatedNeighborLight` from `engine.cpp` (on `int`). -/
def maxUpdatedNeighborLight (next prev : Int) : Int :=
  max next prev - (if max next prev < (kSunlightLevel : Int) then 1 else 0) -
    (if next > prev then 1 else 0)

/-- `minUpdatedNeighborLight` from `engine.cpp` (on `int`). -/
def minUpdatedNeighborLight (next prev : Int) : Int :=
  min next prev - (if next > prev then 1 else 0)

/-- The `edge` lambda of `lightingStage1`:
`(((index >> 8) + 1) & 0xf) < 2 || (((index >> 12) + 1) & 0xf) < 2`, i.e.
the cell's x or z coordinate is 0 or 15. -/
def isEdgeCell (c : Cell) : Bool :=
  ((c.x + 1) % 16 < 2) || ((c.z + 1) % 16 < 2)

/-- The state mutated by one round of `lightingStage1`: the dense light
array, the `stage1_edges` hash set (as its membership function) and the
`next` dirty buffer (as a duplicate-free list, one iteration order of the
hash set). -/
structure Stage1Work where
  lights : Cell → Nat
  edges : Cell → Bool
  next : List Cell

/-- The `stage1_edges` maintenance block of the inner loop of
`lightingStage1`: on an edge cell, insert when the new level enters the open
interval `(1, kSunlightLevel)` and erase when it leaves it. -/
def updateEdges (edges : Cell → Bool) (c : Cell) (next_level prev_level : Nat) :
    Cell → Bool :=
  if isEdgeCell c then
    (if (decide (1 < next_level ∧ next_level < kSunlightLevel))
        ≠ (decide (1 < prev_level ∧ prev_level < kSunlightLevel)) then
      Function.update edges c
        (decide (1 < next_level ∧ next_level < kSunlightLevel))
    else edges)
  else edges

/-- The `enqueue` lambda of `lightingStage1`: add to the next buffer every
in-chunk neighbour whose current light (read after the write) lies in the
inclusive `[lo, hi]` window. -/
def enqueue (lights : Cell → Nat) (lo hi : Int) (c : Cell) (next : List Cell) :
    List Cell :=
  (kLightSpreadList.filter (fun sp => ! sp.atBound c)).foldl
    (fun acc sp =>
      if lo ≤ (lights (sp.step c) : Int) ∧ (lights (sp.step c) : Int) ≤ hi
      then acc.insert (sp.step c) else acc)
    next

/-- One iteration of the `for (const auto index : prev)` loop of
`lightingStage1`: recompute the cell's light; on a change, store it, keep
`stage1_edges` in sync for edge cells, and enqueue the neighbours selected
by the `[minUpdatedNeighborLight, maxUpdatedNeighborLight]` window. -/
def processCell (cfg : Stage1Config) (st : Stage1Work) (c : Cell) : Stage1Work :=
  if query cfg st.lights c = st.lights c then st
  else
    { lights := Function.update st.lights c (query cfg st.lights c),
      edges := updateEdges st.edges c (query cfg st.lights c) (st.lights c),
      next :=
        enqueue (Function.update st.lights c (query cfg st.lights c))
          (minUpdatedNeighborLight (query cfg st.lights c) (st.lights c))
          (maxUpdatedNeighborLight (query cfg st.lights c) (st.lights c))
          c st.next }

/-- One pass of the `while` loop body: iterate `prev` into a fresh `next`
buffer (`next.clear()` before the pass, `std::swap(prev, next)` after). -/
def processRound (cfg : Stage1Config) (lights : Cell → Nat) (edges : Cell → Bool)
    (prev : List Cell) : Stage1Work :=
  prev.foldl (processCell cfg) ⟨lights, edges, []⟩

/-- The `while (!prev.empty())` loop of `lightingStage1`, with explicit
fuel: the `some` results are exactly the terminating executions.  In the
result, `next` is the final `stage1_dirty` (empty after the last swap). -/
def stage1Loop (cfg : Stage1Config) : Nat → (Cell → Nat) → (Cell → Bool) →
    List Cell → Option Stage1Work
  | 0, _, _, _ => none
  | fuel + 1, lights, edges, prev =>
    if prev = [] then some ⟨lights, edges, []⟩
    else
      stage1Loop cfg fuel (processRound cfg lights edges prev).lights
        (processRound cfg lights edges prev).edges
        (processRound cfg lights edges prev).next

/-- `Chunk::lightingStage1` from `engine.cpp`: return at once when
`stage1_dirty` is empty, else run the double-buffered automaton to a
fixpoint (the trailing `eachNeighbor` marks other chunks and is not part of
this chunk's state). -/
def lightingStage1 (cfg : Stage1Config) (fuel : Nat) (lights : Cell → Nat)
    (edges : Cell → Bool) (dirty : List Cell) : Option Stage1Work :=
  if dirty = [] then some ⟨lights, edges, []⟩
  else stage1Loop cfg fuel lights edges dirty

theorem mem_neighborsOf {c n : Cell} :
    n ∈ neighborsOf c ↔
      ∃ sp : Spread, sp ∈ kLightSpreadList ∧ sp.atBound c = false ∧ n = sp.step c := by
  unfold neighborsOf
  simp only [List.mem_map, List.mem_filter, Bool.not_eq_true']
  constructor
  · rintro ⟨sp, ⟨h1, h2⟩, h3⟩
    exact ⟨sp, h1, h2, h3.symm⟩
  · rintro ⟨sp, h1, h2, h3⟩
    exact ⟨sp, ⟨h1, h2⟩, h3.symm⟩

theorem step_inBounds {c : Cell} {sp : Spread} (hc : c.inBounds)
    (hb : sp.atBound c = false) : (sp.step c).inBounds := by
  obtain ⟨hx, hy, hz⟩ := hc
  simp only [kChunkWidth, kWorldHeight] at hx hy hz
  cases sp <;>
    simp only [Spread.atBound, kChunkWidth, kWorldHeight, decide_eq_false_iff_not] at hb <;>
    simp only [Spread.step] <;>
    exact ⟨by simp only [Cell.inBounds, kChunkWidth, kWorldHeight]; omega,
           by simp only [Cell.inBounds, kChunkWidth, kWorldHeight]; omega,
           by simp only [Cell.inBounds, kChunkWidth, kWorldHeight]; omega⟩

theorem neighborsOf_symm {c n : Cell} (hc : c.inBounds) (hmem : n ∈ neighborsOf c) :
    n.inBounds ∧ c ∈ neighborsOf n ∧ n ≠ c := by
  rw [mem_neighborsOf] at hmem
  obtain ⟨sp, hsp, hb, hstep⟩ := hmem
  have hstepb := step_inBounds hc hb
  obtain ⟨cx, cy, cz⟩ := c
  obtain ⟨hx, hy, hz⟩ := hc
  simp only [kChunkWidth, kWorldHeight] at hx hy hz
  subst hstep
  refine ⟨hstepb, ?_, ?_⟩
  · rw [mem_neighborsOf]
    cases sp <;>
      simp only [Spread.atBound, kChunkWidth, kWorldHeight,
        decide_eq_false_iff_not] at hb
    · refine ⟨.xpos, by decide, ?_, ?_⟩
      · simp only [Spread.step, Spread.atBound, kChunkWidth, decide_eq_false_iff_not]
        omega
      · simp only [Spread.step, Cell.mk.injEq, and_true, true_and]
        omega
    · refine ⟨.xneg, by decide, ?_, ?_⟩
      · simp only [Spread.step, Spread.atBound, decide_eq_false_iff_not]
        omega
      · simp only [Spread.step, Cell.mk.injEq, and_true, true_and]
        omega
    · refine ⟨.zpos, by decide, ?_, ?_⟩
      · simp only [Spread.step, Spread.atBound, kChunkWidth, decide_eq_false_iff_not]
        omega
      · simp only [Spread.step, Cell.mk.injEq, and_true, true_and]
        omega
    · refine ⟨.zneg, by decide, ?_, ?_⟩
      · simp only [Spread.step, Spread.atBound, decide_eq_false_iff_not]
        omega
      · simp only [Spread.step, Cell.mk.injEq, and_true, true_and]
        omega
    · refine ⟨.ypos, by decide, ?_, ?_⟩
      · simp only [Spread.step, Spread.atBound, kWorldHeight, decide_eq_false_iff_not]
        omega
      · simp only [Spread.step, Cell.mk.injEq, and_true, true_and]
        omega
    · refine ⟨.yneg, by decide, ?_, ?_⟩
      · simp only [Spread.step, Spread.atBound, decide_eq_false_iff_not]
        omega
      · simp only [Spread.step, Cell.mk.injEq, and_true, true_and]
        omega
  · cases sp <;>
      simp only [Spread.atBound, kChunkWidth, kWorldHeight,
        decide_eq_false_iff_not] at hb <;>
      simp only [Spread.step, ne_eq, Cell.mk.injEq, and_true, true_and] <;>
      omega

theorem not_self_mem_neighborsOf {c : Cell} (hc : c.inBounds) :
    c ∉ neighborsOf c := fun h => (neighborsOf_symm hc h).2.2 rfl

theorem foldl_max_congr (l1 l2 : Cell → Nat) (L : List Cell)
    (h : ∀ n ∈ L, l1 n = l2 n) :
    ∀ a : Nat, L.foldl (fun m n => max m (l1 n)) a =
      L.foldl (fun m n => max m (l2 n)) a := by
  induction L with
  | nil => intro a; rfl
  | cons x t ih =>
    intro a
    simp only [List.foldl_cons]
    rw [h x (List.mem_cons_self x t)]
    exact ih (fun n hn => h n (List.mem_cons_of_mem x hn)) _

theorem query_congr (cfg : Stage1Config) (l1 l2 : Cell → Nat) (c : Cell)
    (h : ∀ n ∈ neighborsOf c, l1 n = l2 n) :
    query cfg l1 c = query cfg l2 c := by
  unfold query
  split_ifs
  · rfl
  · rfl
  · rw [foldl_max_congr l1 l2 _ h]

theorem foldl_max_le (l : Cell → Nat) (L : List Cell) :
    ∀ a : Nat, a ≤ L.foldl (fun m n => max m (l n)) a ∧
      ∀ n ∈ L, l n ≤ L.foldl (fun m n => max m (l n)) a := by
  induction L with
  | nil => intro a; exact ⟨le_refl a, fun n hn => absurd hn (List.not_mem_nil n)⟩
  | cons x t ih =>
    intro a
    simp only [List.foldl_cons]
    rcases ih (max a (l x)) with ⟨h1, h2⟩
    refine ⟨le_trans (le_max_left a (l x)) h1, ?_⟩
    intro n hn
    rcases List.mem_cons.mp hn with rfl | hn
    · exact le_trans (le_max_right a (l n)) h1
    · exact h2 n hn

theorem foldl_max_cases (l : Cell → Nat) (L : List Cell) :
    ∀ a : Nat, L.foldl (fun m n => max m (l n)) a = a ∨
      ∃ n ∈ L, L.foldl (fun m n => max m (l n)) a = l n := by
  induction L with
  | nil => intro a; exact Or.inl rfl
  | cons x t ih =>
    intro a
    simp only [List.foldl_cons]
    rcases ih (max a (l x)) with h | ⟨n, hn, h⟩
    · rcases Nat.le_total a (l x) with hle | hle
      · right
        exact ⟨x, List.mem_cons_self x t, by rw [h]; omega⟩
      · left
        rw [h]; omega
    · right
      exact ⟨n, List.mem_cons_of_mem x hn, h⟩

/-- The window soundness of `maxUpdatedNeighborLight` /
`minUpdatedNeighborLight`: when a neighbour `j` of `c` changes from
`lights j` to `query cfg lights j` and this invalidates `c`'s fixpoint,
`c`'s current light lies inside the inclusive enqueue window. -/
theorem stage1_window {cfg : Stage1Config} {lights : Cell → Nat} {c j : Cell}
    (hjmem : j ∈ neighborsOf c)
    (hfix : lights c = query cfg lights c)
    (hne2 : query cfg (Function.update lights j (query cfg lights j)) c ≠ lights c) :
    minUpdatedNeighborLight (query cfg lights j) (lights j) ≤ (lights c : Int) ∧
    (lights c : Int) ≤ maxUpdatedNeighborLight (query cfg lights j) (lights j) := by
  by_cases hop : (cfg.registry (cfg.voxels c)).light < 0
  · exfalso
    apply hne2
    have h1 : query cfg (Function.update lights j (query cfg lights j)) c = 0 := by
      unfold query
      rw [if_pos hop]
    have h2 : query cfg lights c = 0 := by
      unfold query
      rw [if_pos hop]
    rw [h1, hfix, h2]
  by_cases hsun : cfg.heightmap c.x c.z ≤ c.y
  · exfalso
    apply hne2
    have h1 : query cfg (Function.update lights j (query cfg lights j)) c =
        kSunlightLevel := by
      unfold query
      rw [if_neg hop, if_pos hsun]
    have h2 : query cfg lights c = kSunlightLevel := by
      unfold query
      rw [if_neg hop, if_pos hsun]
    rw [h1, hfix, h2]
  -- The interesting branch: `query` is `max_neighbor - 1` on both sides.
  have hq_old : query cfg lights c =
      (neighborsOf c).foldl (fun m n => max m (lights n))
        (max (cfg.registry (cfg.voxels c)).light.toNat
          ((cfg.point_lights c).getD 0) + 1) - 1 := by
    unfold query
    rw [if_neg hop, if_neg hsun]
  have hq_new : query cfg (Function.update lights j (query cfg lights j)) c =
      (neighborsOf c).foldl
        (fun m n => max m (Function.update lights j (query cfg lights j) n))
        (max (cfg.registry (cfg.voxels c)).light.toNat
          ((cfg.point_lights c).getD 0) + 1) - 1 := by
    unfold query
    rw [if_neg hop, if_neg hsun]
  set B := max (cfg.registry (cfg.voxels c)).light.toNat
    ((cfg.point_lights c).getD 0) + 1 with hB
  set nx := query cfg lights j with hnx
  set l2 := Function.update lights j nx with hl2
  set Fo := (neighborsOf c).foldl (fun m n => max m (lights n)) B with hFo
  set Fn := (neighborsOf c).foldl (fun m n => max m (l2 n)) B with hFn
  have hl2j : l2 j = nx := by rw [hl2, Function.update_same]
  have hl2ne : ∀ n, n ≠ j → l2 n = lights n := by
    intro n hn
    rw [hl2, Function.update_noteq hn]
  have hBo := foldl_max_le lights (neighborsOf c) B
  have hBn := foldl_max_le l2 (neighborsOf c) B
  have hprevF : lights j ≤ Fo := hBo.2 j hjmem
  have hnextF : nx ≤ Fn := by
    have := hBn.2 j hjmem
    rwa [hl2j] at this
  have hD : Fn ≤ Fo ∨ Fn ≤ nx := by
    rcases foldl_max_cases l2 (neighborsOf c) B with hc1 | ⟨n, hnL, hc2⟩
    · left; rw [← hFn] at hc1; rw [hc1]; exact hBo.1
    · rw [← hFn] at hc2
      by_cases hnj : n = j
      · right; rw [hc2, hnj, hl2j]
      · left; rw [hc2, hl2ne n hnj]; exact hBo.2 n hnL
  have hE : Fo ≤ Fn ∨ Fo ≤ lights j := by
    rcases foldl_max_cases lights (neighborsOf c) B with hc1 | ⟨n, hnL, hc2⟩
    · left; rw [← hFo] at hc1; rw [hc1]; exact hBn.1
    · rw [← hFo] at hc2
      by_cases hnj : n = j
      · right; rw [hc2, hnj]
      · left; rw [hc2, ← hl2ne n hnj]; exact hBn.2 n hnL
  have hBpos : 1 ≤ B := by rw [hB]; omega
  have hFopos : 1 ≤ Fo := le_trans hBpos hBo.1
  have hFnpos : 1 ≤ Fn := le_trans hBpos hBn.1
  have hlc : lights c = Fo - 1 := by rw [hfix, hq_old]
  have hneF : Fo ≠ Fn := by
    intro heq
    apply hne2
    rw [hq_new, ← heq, ← hq_old, ← hfix]
  unfold minUpdatedNeighborLight maxUpdatedNeighborLight kSunlightLevel
  rcases hD with hD | hD <;> rcases hE with hE | hE <;> split_ifs <;> omega

theorem mem_enqueue_aux (l : Cell → Nat) (lo hi : Int) (c x : Cell) :
    ∀ (L : List Spread) (acc : List Cell),
      (x ∈ L.foldl
        (fun acc sp =>
          if lo ≤ (l (sp.step c) : Int) ∧ (l (sp.step c) : Int) ≤ hi
          then acc.insert (sp.step c) else acc) acc) ↔
      x ∈ acc ∨ ∃ sp ∈ L,
        (lo ≤ (l (sp.step c) : Int) ∧ (l (sp.step c) : Int) ≤ hi) ∧ x = sp.step c := by
  intro L
  induction L with
  | nil => intro acc; simp
  | cons sp t ih =>
    intro acc
    simp only [List.foldl_cons, List.mem_cons]
    rw [ih]
    split_ifs with hw
    · rw [List.mem_insert_iff]
      constructor
      · rintro ((h | h) | h)
        · exact Or.inr ⟨sp, Or.inl rfl, hw, h⟩
        · exact Or.inl h
        · rcases h with ⟨sp', hsp', h1, h2⟩
          exact Or.inr ⟨sp', Or.inr hsp', h1, h2⟩
      · rintro (h | ⟨sp', (rfl | hsp'), h1, h2⟩)
        · exact Or.inl (Or.inr h)
        · exact Or.inl (Or.inl h2)
        · exact Or.inr ⟨sp', hsp', h1, h2⟩
    · constructor
      · rintro (h | ⟨sp', hsp', h1, h2⟩)
        · exact Or.inl h
        · exact Or.inr ⟨sp', Or.inr hsp', h1, h2⟩
      · rintro (h | ⟨sp', (rfl | hsp'), h1, h2⟩)
        · exact Or.inl h
        · exact absurd h1 hw
        · exact Or.inr ⟨sp', hsp', h1, h2⟩

theorem mem_enqueue (l : Cell → Nat) (lo hi : Int) (c x : Cell) (next : List Cell) :
    x ∈ enqueue l lo hi c next ↔
      x ∈ next ∨ (x ∈ neighborsOf c ∧ lo ≤ (l x : Int) ∧ (l x : Int) ≤ hi) := by
  unfold enqueue
  rw [mem_enqueue_aux]
  constructor
  · rintro (h | ⟨sp, hsp, hw, rfl⟩)
    · exact Or.inl h
    · rcases List.mem_filter.mp hsp with ⟨h1, h2⟩
      refine Or.inr ⟨?_, hw⟩
      rw [mem_neighborsOf]
      exact ⟨sp, h1, by simpa using h2, rfl⟩
  · rintro (h | ⟨hmem, hw⟩)
    · exact Or.inl h
    · rcases mem_neighborsOf.mp hmem with ⟨sp, h1, h2, rfl⟩
      exact Or.inr ⟨sp, List.mem_filter.mpr ⟨h1, by simpa using h2⟩, hw, rfl⟩

theorem processCell_spec (cfg : Stage1Config) (st : Stage1Work) (j : Cell)
    (rest : List Cell) (hjb : j.inBounds)
    (hnb : ∀ c ∈ st.next, c.inBounds)
    (hinv : ∀ c : Cell, c.inBounds → c ∉ (j :: rest) → c ∉ st.next →
      st.lights c = query cfg st.lights c) :
    (∀ c ∈ (processCell cfg st j).next, c.inBounds) ∧
    (∀ c : Cell, c.inBounds → c ∉ rest → c ∉ (processCell cfg st j).next →
      (processCell cfg st j).lights c =
        query cfg (processCell cfg st j).lights c) := by
  unfold processCell
  split_ifs with hch
  · -- The recomputed value is unchanged: the state is untouched, and the
    -- processed cell satisfies the fixpoint by `hch` itself.
    refine ⟨hnb, ?_⟩
    intro c hcb hcr hcn
    by_cases hcj : c = j
    · subst hcj
      exact hch.symm
    · refine hinv c hcb ?_ hcn
      intro hmem
      rcases List.mem_cons.mp hmem with h | h
      · exact hcj h
      · exact hcr h
  · simp only
    constructor
    · intro c hc
      rcases (mem_enqueue _ _ _ _ _ _).mp hc with h | ⟨hmem, _⟩
      · exact hnb c h
      · exact (neighborsOf_symm hjb hmem).1
    · intro c hcb hcr hcn
      have hcn' : c ∉ st.next := by
        intro h
        exact hcn ((mem_enqueue _ _ _ _ _ _).mpr (Or.inl h))
      by_cases hcj : c = j
      · -- The processed cell itself: its new value is `query` of the old
        -- lights, and `query` at `j` never reads `j`.
        subst hcj
        rw [Function.update_same]
        refine (query_congr cfg _ _ c ?_).symm
        intro n hn
        have hnc := (neighborsOf_symm hjb hn).2.2
        rw [Function.update_noteq hnc]
      · rw [Function.update_noteq hcj]
        have hold : st.lights c = query cfg st.lights c := by
          refine hinv c hcb ?_ hcn'
          intro hmem
          rcases List.mem_cons.mp hmem with h | h
          · exact hcj h
          · exact hcr h
        by_cases hjn : j ∈ neighborsOf c
        · by_cases hq :
              query cfg (Function.update st.lights j (query cfg st.lights j)) c =
                st.lights c
          · rw [hq, hold]
          · exfalso
            have hwin := stage1_window hjn hold hq
            apply hcn
            refine (mem_enqueue _ _ _ _ _ _).mpr (Or.inr ⟨?_, ?_, ?_⟩)
            · exact (neighborsOf_symm hcb hjn).2.1
            · rw [Function.update_noteq hcj]; exact hwin.1
            · rw [Function.update_noteq hcj]; exact hwin.2
        · rw [hold]
          refine query_congr cfg _ _ c ?_
          intro n hn
          have hnj : n ≠ j := by
            intro h
            exact hjn (h ▸ hn)
          rw [Function.update_noteq hnj]

theorem processRound_core (cfg : Stage1Config) :
    ∀ (todo : List Cell) (st : Stage1Work),
      (∀ c ∈ todo, c.inBounds) →
      (∀ c ∈ st.next, c.inBounds) →
      (∀ c : Cell, c.inBounds → c ∉ todo → c ∉ st.next →
        st.lights c = query cfg st.lights c) →
      (∀ c ∈ (todo.foldl (processCell cfg) st).next, c.inBounds) ∧
      (∀ c : Cell, c.inBounds → c ∉ (todo.foldl (processCell cfg) st).next →
        (todo.foldl (processCell cfg) st).lights c =
          query cfg (todo.foldl (processCell cfg) st).lights c) := by
  intro todo
  induction todo with
  | nil =>
    intro st htb hnb hinv
    exact ⟨hnb, fun c hcb hcn => hinv c hcb (List.not_mem_nil c) hcn⟩
  | cons j rest ih =>
    intro st htb hnb hinv
    simp only [List.foldl_cons]
    have hjb : j.inBounds := htb j (List.mem_cons_self j rest)
    obtain ⟨hnb', hinv'⟩ := processCell_spec cfg st j rest hjb hnb hinv
    exact ih (processCell cfg st j)
      (fun c hc => htb c (List.mem_cons_of_mem j hc)) hnb'
      (fun c hcb hcr hcn => hinv' c hcb hcr hcn)

theorem stage1Loop_spec (cfg : Stage1Config) :
    ∀ (fuel : Nat) (lights : Cell → Nat) (edges : Cell → Bool)
      (prev : List Cell) (w : Stage1Work),
      (∀ c ∈ prev, c.inBounds) →
      (∀ c : Cell, c.inBounds → c ∉ prev → lights c = query cfg lights c) →
      stage1Loop cfg fuel lights edges prev = some w →
      w.next = [] ∧ ∀ c : Cell, c.inBounds → w.lights c = query cfg w.lights c := by
  intro fuel
  induction fuel with
  | zero => intro lights edges prev w _ _ h; exact absurd h (by simp [stage1Loop])
  | succ fuel ih =>
    intro lights edges prev w hpb hinv hrun
    unfold stage1Loop at hrun
    split_ifs at hrun with hemp
    · cases hrun
      exact ⟨rfl, fun c hcb => hinv c hcb (by simp [hemp])⟩
    · have hcore := processRound_core cfg prev ⟨lights, edges, []⟩ hpb
        (by intro c hc; exact absurd hc (List.not_mem_nil c))
        (fun c hcb hcp _ => hinv c hcb hcp)
      exact ih _ _ _ w hcore.1 hcore.2 hrun

/-- C2: if `lightingStage1` is entered with the standard work-list invariant
— every in-bounds cell not in `stage1_dirty` is at its `query` fixpoint, and
`stage1_dirty` holds valid indices — then when it returns (`some`, i.e. the
`while` loop terminated within the given fuel), `stage1_dirty` is empty and
every in-bounds non-opaque cell `i` satisfies `stage1_lights[i] = query(i)`:
`kSunlightLevel` at or above the column height, else
`max(base, maxNeighbor - 1)` with `base` the max of the block emission and
the point light, as computed by `query`. -/
theorem lightingStage1_fixpoint (cfg : Stage1Config) (fuel : Nat)
    (lights : Cell → Nat) (edges : Cell → Bool) (dirty : List Cell)
    (w : Stage1Work)
    (hdb : ∀ c ∈ dirty, c.inBounds)
    (hinv : ∀ c : Cell, c.inBounds → c ∉ dirty → lights c = query cfg lights c)
    (hrun : lightingStage1 cfg fuel lights edges dirty = some w) :
    w.next = [] ∧
    ∀ c : Cell, c.inBounds → (cfg.registry (cfg.voxels c)).isOpaque = false →
      w.lights c = query cfg w.lights c := by
  unfold lightingStage1 at hrun
  split_ifs at hrun with hemp
  · cases hrun
    exact ⟨rfl, fun c hcb _ => hinv c hcb (by simp [hemp])⟩
  · obtain ⟨h1, h2⟩ := stage1Loop_spec cfg fuel lights edges dirty w hdb hinv hrun
    exact ⟨h1, fun c hcb _ => h2 c hcb⟩

/-- Witness configuration: a fully sunlit chunk (heightmap 0) with a clean
dirty set. -/
def witnessStage1Config : Stage1Config :=
  ⟨witnessRegistry, fun _ => Block.Air, fun _ => none, fun _ _ => 0⟩

theorem lightingStage1_fixpoint_witness :
    ∃ w : Stage1Work,
      lightingStage1 witnessStage1Config 1 (fun _ => kSunlightLevel)
          (fun _ => false) [] = some w ∧
      w.next = [] ∧
      ∀ c : Cell, c.inBounds →
        (witnessStage1Config.registry (witnessStage1Config.voxels c)).isOpaque = false →
        w.lights c = query witnessStage1Config w.lights c := by
  refine ⟨⟨fun _ => kSunlightLevel, fun _ => false, []⟩, rfl, ?_⟩
  refine lightingStage1_fixpoint witnessStage1Config 1 (fun _ => kSunlightLevel)
    (fun _ => false) [] _ (fun c hc => absurd hc (List.not_mem_nil c)) ?_ rfl
  intro c _ _
  unfold query witnessStage1Config
  rw [if_neg (by simp [witnessRegistry]), if_pos (Nat.zero_le c.y)]

/-- The `stage1_edges` invariant of `spec.md` §3.4: an edge cell is in the
set exactly when its stage-1 light lies strictly between 1 and
`kSunlightLevel`. -/
def EdgesInv (lights : Cell → Nat) (edges : Cell → Bool) : Prop :=
  ∀ c : Cell, c.inBounds → isEdgeCell c = true →
    (edges c = true ↔ (1 < lights c ∧ lights c < kSunlightLevel))

theorem processCell_edges (cfg : Stage1Config) (st : Stage1Work) (j : Cell)
    (h : EdgesInv st.lights st.edges) :
    EdgesInv (processCell cfg st j).lights (processCell cfg st j).edges := by
  unfold processCell
  split_ifs with hch
  · exact h
  · intro c hcb hce
    show updateEdges st.edges j (query cfg st.lights j) (st.lights j) c = true ↔
      (1 < Function.update st.lights j (query cfg st.lights j) c ∧
        Function.update st.lights j (query cfg st.lights j) c < kSunlightLevel)
    unfold updateEdges
    by_cases hcj : c = j
    · subst hcj
      rw [if_pos hce, Function.update_same]
      split_ifs with hflip
      · rw [Function.update_same]
        simp only [decide_eq_true_eq]
      · have hiff := decide_eq_decide.mp (not_ne_iff.mp hflip)
        rw [h c hcb hce, hiff]
    · rw [Function.update_noteq hcj]
      have hsame : (if isEdgeCell j = true then
          (if (decide (1 < query cfg st.lights j ∧ query cfg st.lights j < kSunlightLevel))
              ≠ (decide (1 < st.lights j ∧ st.lights j < kSunlightLevel)) then
            Function.update st.edges j
              (decide (1 < query cfg st.lights j ∧ query cfg st.lights j < kSunlightLevel))
          else st.edges)
        else st.edges) c = st.edges c := by
        split_ifs
        · rw [Function.update_noteq hcj]
        · rfl
        · rfl
      rw [hsame]
      exact h c hcb hce

theorem stage1Loop_edges (cfg : Stage1Config) :
    ∀ (fuel : Nat) (lights : Cell → Nat) (edges : Cell → Bool)
      (prev : List Cell) (w : Stage1Work),
      EdgesInv lights edges →
      stage1Loop cfg fuel lights edges prev = some w →
      EdgesInv w.lights w.edges := by
  intro fuel
  induction fuel with
  | zero => intro lights edges prev w _ h; exact absurd h (by simp [stage1Loop])
  | succ fuel ih =>
    intro lights edges prev w h hrun
    unfold stage1Loop at hrun
    split_ifs at hrun with hemp
    · cases hrun
      exact h
    · refine ih _ _ _ w ?_ hrun
      exact foldl_preserves (fun st => EdgesInv st.lights st.edges)
        (processCell cfg) (fun st c hst => processCell_edges cfg st c hst)
        prev ⟨lights, edges, []⟩ h

/-- C4: `lightingStage1` maintains the `stage1_edges` invariant: if on entry
every in-bounds edge cell (x or z coordinate 0 or 15) is in `stage1_edges`
exactly when `1 < stage1_lights[i] < kSunlightLevel`, the same holds when
the call returns (`lightingInit` establishes it with an empty set, since
there every edge cell holds 0 or `kSunlightLevel`). -/
theorem lightingStage1_edges_invariant (cfg : Stage1Config) (fuel : Nat)
    (lights : Cell → Nat) (edges : Cell → Bool) (dirty : List Cell)
    (w : Stage1Work)
    (h : EdgesInv lights edges)
    (hrun : lightingStage1 cfg fuel lights edges dirty = some w) :
    EdgesInv w.lights w.edges := by
  unfold lightingStage1 at hrun
  split_ifs at hrun with hemp
  · cases hrun
    exact h
  · exact stage1Loop_edges cfg fuel lights edges dirty w h hrun

theorem lightingStage1_edges_invariant_witness :
    EdgesInv (fun _ => kSunlightLevel) (fun _ => false) ∧
    ∃ w : Stage1Work,
      lightingStage1 witnessStage1Config 1 (fun _ => kSunlightLevel)
          (fun _ => false) [] = some w ∧ EdgesInv w.lights w.edges := by
  have h : EdgesInv (fun _ => kSunlightLevel) (fun _ => false) := by
    intro c _ _
    simp [kSunlightLevel]
  refine ⟨h, ⟨fun _ => kSunlightLevel, fun _ => false, []⟩, rfl, ?_⟩
  exact lightingStage1_edges_invariant witnessStage1Config 1 _ _ [] _ h rfl

/-! ### C7: `Chunk::load` and `Chunk::detectMismatches`

`Chunk::load` parses the worldgen byte stream (`loadChunkData`), a
back-to-back sequence of per-column scripts (§6.1 of the spec): `(block,
end_y)` run pairs with strictly increasing `end_y` terminating at
`end_y ≥ kBuildHeight`, a decoration count, then `(block, y)` decoration
pairs.  We model the stream structurally, one `ColumnScript` per column; the
`base` pointer of the source is the first column of the stream, i.e. the
script of column `(x = 0, z = 0)` (`z` is the outer loop and `x` the inner
one).  The `mismatches` integer array is accumulated separately from the
voxel writes, which is faithful because the two never read each other. -/

/-- One column of the worldgen column script. -/
structure ColumnScript where
  runs : List (Block × Nat)
  decorations : List (Block × Nat)

/-- Well-formedness of a run list from parse position `start`: the parse
loop of `Chunk::load` asserts `item.index > start`, stops once
`start ≥ kBuildHeight`, and reads `end_y` as a byte (`≤ 255 =
kBuildHeight`); a well-formed stream is consumed exactly. -/
def RunsOk : Nat → List (Block × Nat) → Prop
  | start, [] => kBuildHeight ≤ start
  | start, r :: rest =>
      start < kBuildHeight ∧ start < r.2 ∧ r.2 ≤ kBuildHeight ∧ RunsOk r.2 rest

instance : ∀ (start : Nat) (runs : List (Block × Nat)), Decidable (RunsOk start runs)
  | _, [] => by unfold RunsOk; infer_instance
  | start, r :: rest =>
    have := instDecidableRunsOk r.2 rest
    by unfold RunsOk; infer_instance

/-- `Chunk::setColumn` from `engine.cpp`: `memset` the `count` cells of the
column above `start` (the `y`-stride of `ChunkTensor3` is 1), mark them
stage-1 dirty when the block emits light, and run `updateHeightmap`. -/
def setColumn (registry : Registry) (c : ChunkE) (x z start count : Nat)
    (block : Block) : ChunkE :=
  ChunkE.updateHeightmap
    { c with
      voxels := fun d =>
        if d.x = x ∧ d.z = z ∧ start ≤ d.y ∧ d.y < start + count then block
        else c.voxels d,
      stage1_dirty :=
        if 0 < (registry block).light then
          (List.range' start count).foldl
            (fun l y => l.insert (⟨x, y, z⟩ : Cell)) c.stage1_dirty
        else c.stage1_dirty }
    x z start count block

/-- The run-laying loop of `Chunk::load` for one column: repeatedly
`setColumn` from the current `start` to the run's `end_y`. -/
def loadColumnRuns (registry : Registry) (c : ChunkE) (x z : Nat) :
    Nat → List (Block × Nat) → ChunkE
  | _, [] => c
  | start, r :: rest =>
      loadColumnRuns registry (setColumn registry c x z start (r.2 - start) r.1)
        x z r.2 rest

/-- The decoration loop of `Chunk::load` for one column: each decoration
overwrites a single voxel (`setColumn` with count 1) and updates the
instance map. -/
def loadColumnDecos (registry : Registry) (c : ChunkE) (x z : Nat) :
    List (Block × Nat) → ChunkE
  | [] => c
  | d :: rest =>
      loadColumnDecos registry
        ((setColumn registry c x z d.2 1 d.1).updateInstance registry
          ⟨x, d.2, z⟩ (c.voxels ⟨x, d.2, z⟩) d.1)
        x z rest

/-- `mismatches[i] += v`. -/
def mmAdd (mm : Nat → Int) (i : Nat) (v : Int) : Nat → Int :=
  Function.update mm i (mm i + v)

/-- The decoration part of the mismatch accounting in `Chunk::load`:
`mismatches[y]++` and `mismatches[y + 1]--` for every decoration. -/
def decoMismatches (decos : List (Block × Nat)) (mm : Nat → Int) : Nat → Int :=
  decos.foldl (fun mm d => mmAdd (mmAdd mm d.2 1) (d.2 + 1) (-1)) mm

/-- `Chunk::detectMismatches` from `engine.cpp`: merge-walk the two run
lists; whenever the match state flips, add `±1` at `max(base_start,
test_start)`; if the walk ends unmatched, subtract 1 at `kBuildHeight`. -/
def detectMismatchesGo (matched : Bool) (bs ts : Nat)
    (base test : List (Block × Nat)) (mm : Nat → Int) : Nat → Int :=
  if bs < kBuildHeight then
    match base, test with
    | (bb, be) :: brest, (tb, te) :: trest =>
      let mm2 := if matched ≠ decide (bb = tb) then
          mmAdd mm (max bs ts) (if matched then 1 else -1) else mm
      let matched2 := if matched ≠ decide (bb = tb) then !matched else matched
      if be ≤ te then
        if te ≤ be then detectMismatchesGo matched2 be te brest trest mm2
        else detectMismatchesGo matched2 be ts brest ((tb, te) :: trest) mm2
      else detectMismatchesGo matched2 bs te ((bb, be) :: brest) trest mm2
    | _, _ => mm
  else
    if !matched then mmAdd mm kBuildHeight (-1) else mm
termination_by base.length + test.length
decreasing_by
  · simp only [List.length_cons]; omega
  · simp only [List.length_cons]; omega
  · simp only [List.length_cons]; omega

/-- `Chunk::detectMismatches`, started as in `Chunk::load`. -/
def detectMismatches (base test : List (Block × Nat)) (mm : Nat → Int) :
    Nat → Int :=
  detectMismatchesGo true 0 0 base test mm

/-- The column visit order of `Chunk::load` (`z` outer, `x` inner). -/
def kColumnOrder : List (Nat × Nat) :=
  ((List.range kChunkWidth).map
    (fun z => (List.range kChunkWidth).map (fun x => (x, z)))).join

/-- The zero-initialized chunk slot (`Circle` slots are value-initialized
and `load` starts with `heightmap.data.fill(0)`). -/
def emptyChunkE : ChunkE :=
  ⟨fun _ => Block.Air, fun _ _ => 0, fun _ => false, fun _ => none, [], false, false⟩

/-- The running prefix sum `cur` of the `equilevels` derivation loop of
`Chunk::load` (`cur += mismatches[i]` for `i ≤ y`). -/
def prefixSum (mm : Nat → Int) (y : Nat) : Int :=
  ∑ i in Finset.range (y + 1), mm i

/-- All of `Chunk::load`: lay every column's runs and decorations into the
zeroed chunk, accumulate the per-height mismatch counters (the first column
of the stream, `(0, 0)`, is the `base`), and derive `equilevels[y]` as
"running prefix sum is zero". -/
def load (registry : Registry) (cols : Nat → Nat → ColumnScript) : ChunkE :=
  { kColumnOrder.foldl
      (fun c xz =>
        loadColumnDecos registry
          (loadColumnRuns registry c xz.1 xz.2 0 (cols xz.1 xz.2).runs)
          xz.1 xz.2 (cols xz.1 xz.2).decorations)
      emptyChunkE with
    equilevels := fun y =>
      decide (prefixSum
        (kColumnOrder.foldl
          (fun mm xz =>
            decoMismatches (cols xz.1 xz.2).decorations
              (detectMismatches (cols 0 0).runs (cols xz.1 xz.2).runs mm))
          (fun _ => 0))
        y = 0) }

/-- The block a run list stores at height `y` (the run covering `y`; `Air`
past the final run, matching the untouched top plane). -/
def runBlock : List (Block × Nat) → Nat → Block
  | [], _ => Block.Air
  | r :: rest, y => if y < r.2 then r.1 else runBlock rest y

theorem prefixSum_mmAdd (mm : Nat → Int) (i : Nat) (v : Int) (y : Nat) :
    prefixSum (mmAdd mm i v) y = prefixSum mm y + (if i ≤ y then v else 0) := by
  unfold prefixSum mmAdd
  by_cases h : i ≤ y
  · rw [if_pos h]
    have hmem : i ∈ Finset.range (y + 1) := Finset.mem_range.mpr (by omega)
    rw [Finset.sum_update_of_mem hmem, ← Finset.add_sum_erase _ mm hmem,
      Finset.erase_eq]
    ring
  · rw [if_neg h, add_zero]
    apply Finset.sum_congr rfl
    intro j hj
    have hji : j ≠ i := by
      have := Finset.mem_range.mp hj
      omega
    rw [Function.update_noteq hji]

/-- The number of decorations of a column at height `y`. -/
def decosAt (decos : List (Block × Nat)) (y : Nat) : Nat :=
  (decos.filter (fun d => decide (d.2 = y))).length

theorem prefixSum_decoMismatches (decos : List (Block × Nat)) (mm : Nat → Int)
    (y : Nat) :
    prefixSum (decoMismatches decos mm) y =
      prefixSum mm y + (decosAt decos y : Int) := by
  induction decos generalizing mm with
  | nil => simp [decoMismatches, decosAt]
  | cons d rest ih =>
    unfold decoMismatches at ih ⊢
    simp only [List.foldl_cons]
    rw [ih, prefixSum_mmAdd, prefixSum_mmAdd]
    have hcnt : (decosAt (d :: rest) y : Int) =
        (decosAt rest y : Int) + (if d.2 = y then 1 else 0) := by
      unfold decosAt
      simp only [List.filter_cons, decide_eq_true_eq]
      split_ifs with h1
      · simp only [List.length_cons]
        push_cast
        ring
      · ring
    rw [hcnt]
    split_ifs <;> omega

theorem runBlock_cons_ge {b : Block} {e y : Nat} {rest : List (Block × Nat)}
    (h : e ≤ y) : runBlock ((b, e) :: rest) y = runBlock rest y := by
  have hstep : runBlock ((b, e) :: rest) y = if y < e then b else runBlock rest y := rfl
  rw [hstep, if_neg (by omega)]

/-- The prefix-sum contribution of one `detectMismatchesGo` walk: below the
current merge position nothing is touched; above it, the indicator of a run
mismatch at `y` minus the debt of an open mismatch interval. -/
def phi (matched : Bool) (bs ts : Nat) (base test : List (Block × Nat))
    (y : Nat) : Int :=
  if max bs ts ≤ y then
    (if y < kBuildHeight ∧ runBlock base y ≠ runBlock test y then 1 else 0) -
      (if matched = true then 0 else 1)
  else 0

theorem phi_step (matched : Bool) (bb tb : Block)
    (bs ts bs' ts' : Nat) (base test base' test' : List (Block × Nat)) (y : Nat)
    (hM : max bs ts ≤ max bs' ts') (hM255 : max bs' ts' ≤ kBuildHeight)
    (hseg : ∀ u, max bs ts ≤ u → u < max bs' ts' →
        runBlock base u = bb ∧ runBlock test u = tb)
    (hnew : ∀ u, max bs' ts' ≤ u →
        runBlock base' u = runBlock base u ∧ runBlock test' u = runBlock test u) :
    phi matched bs ts base test y =
      (if (matched ≠ decide (bb = tb)) ∧ max bs ts ≤ y then
          (if matched = true then 1 else -1) else 0) +
      phi (if matched ≠ decide (bb = tb) then !matched else matched)
        bs' ts' base' test' y := by
  by_cases hy1 : max bs ts ≤ y
  · by_cases hy2 : max bs' ts' ≤ y
    · -- Above both positions: the lists agree beyond `max bs' ts'`.
      unfold phi
      rw [if_pos hy1, if_pos hy2]
      rw [(hnew y hy2).1, (hnew y hy2).2]
      clear hnew hseg hM hM255
      rcases Bool.eq_false_or_eq_true (decide (bb = tb)) with hd | hd <;>
        cases matched <;> simp [hd, hy1] <;> (try split_ifs) <;> omega
    · -- Between the two positions: the current runs are `(bb, tb)` and the
      -- new call contributes nothing yet.
      have hy2' : y < max bs' ts' := by omega
      unfold phi
      rw [if_pos hy1, if_neg hy2]
      rw [(hseg y hy1 hy2').1, (hseg y hy1 hy2').2]
      have hy255 : y < kBuildHeight := by omega
      clear hnew hseg hM hM255
      rcases Bool.eq_false_or_eq_true (decide (bb = tb)) with hd | hd
      · have heq : bb = tb := of_decide_eq_true hd
        subst heq
        cases matched <;> simp [hd, hy1] <;> (try split_ifs) <;> omega
      · have hne : bb ≠ tb := of_decide_eq_false hd
        cases matched <;> simp [hd, hne, hy1, hy255] <;> (try split_ifs) <;> omega
  · -- Below the old position nothing contributes.
    have hy2 : ¬ max bs' ts' ≤ y := by omega
    unfold phi
    rw [if_neg hy1, if_neg hy2, if_neg (fun hc => hy1 hc.2)]
    ring

theorem runBlock_cons_lt {b : Block} {e y : Nat} {rest : List (Block × Nat)}
    (h : y < e) : runBlock ((b, e) :: rest) y = b := by
  have hstep : runBlock ((b, e) :: rest) y = if y < e then b else runBlock rest y := rfl
  rw [hstep, if_pos h]

theorem detectMismatchesGo_exit {matched : Bool} {bs ts : Nat}
    {base test : List (Block × Nat)} {mm : Nat → Int} (h : ¬ bs < kBuildHeight) :
    detectMismatchesGo matched bs ts base test mm =
      if !matched then mmAdd mm kBuildHeight (-1) else mm := by
  rw [detectMismatchesGo.eq_def, if_neg h]

theorem detectMismatchesGo_nil_base {matched : Bool} {bs ts : Nat}
    {test : List (Block × Nat)} {mm : Nat → Int} (h : bs < kBuildHeight) :
    detectMismatchesGo matched bs ts [] test mm = mm := by
  rw [detectMismatchesGo.eq_def, if_pos h]

theorem detectMismatchesGo_nil_test {matched : Bool} {bs ts : Nat}
    {base : List (Block × Nat)} {mm : Nat → Int} (h : bs < kBuildHeight) :
    detectMismatchesGo matched bs ts base [] mm = mm := by
  rw [detectMismatchesGo.eq_def, if_pos h]
  cases base <;> rfl

theorem detectMismatchesGo_cons {matched : Bool} {bs ts : Nat} {bb tb : Block}
    {be te : Nat} {brest trest : List (Block × Nat)} {mm : Nat → Int}
    (h : bs < kBuildHeight) :
    detectMismatchesGo matched bs ts ((bb, be) :: brest) ((tb, te) :: trest) mm =
      if be ≤ te then
        if te ≤ be then
          detectMismatchesGo
            (if matched ≠ decide (bb = tb) then !matched else matched) be te
            brest trest
            (if matched ≠ decide (bb = tb) then
              mmAdd mm (max bs ts) (if matched then 1 else -1) else mm)
        else
          detectMismatchesGo
            (if matched ≠ decide (bb = tb) then !matched else matched) be ts
            brest ((tb, te) :: trest)
            (if matched ≠ decide (bb = tb) then
              mmAdd mm (max bs ts) (if matched then 1 else -1) else mm)
      else
        detectMismatchesGo
          (if matched ≠ decide (bb = tb) then !matched else matched) bs te
          ((bb, be) :: brest) trest
          (if matched ≠ decide (bb = tb) then
            mmAdd mm (max bs ts) (if matched then 1 else -1) else mm) := by
  rw [detectMismatchesGo.eq_def, if_pos h]

theorem phi_of_max_eq {bs ts : Nat} (matched : Bool)
    (base test : List (Block × Nat)) (y : Nat) (hm : max bs ts = kBuildHeight) :
    phi matched bs ts base test y =
      if kBuildHeight ≤ y then (if matched = true then 0 else -1) else 0 := by
  unfold phi
  rw [hm]
  by_cases hy : kBuildHeight ≤ y
  · rw [if_pos hy, if_pos hy, if_neg (fun hc => absurd hc.1 (by omega))]
    cases matched <;> norm_num
  · rw [if_neg hy, if_neg hy]

theorem detectMismatchesGo_prefixSum_exit {matched : Bool} {bs ts : Nat}
    {base test : List (Block × Nat)} {mm : Nat → Int} {y : Nat}
    (h : ¬ bs < kBuildHeight) (hbs : bs ≤ kBuildHeight) (hts : ts ≤ kBuildHeight) :
    prefixSum (detectMismatchesGo matched bs ts base test mm) y =
      prefixSum mm y + phi matched bs ts base test y := by
  have hm : max bs ts = kBuildHeight := by omega
  rw [detectMismatchesGo_exit h, phi_of_max_eq matched base test y hm]
  cases matched
  · show prefixSum (mmAdd mm kBuildHeight (-1)) y = _
    rw [prefixSum_mmAdd]
    simp
  · show prefixSum mm y = _
    simp

/-- The prefix-sum effect of the whole merge walk: it adds exactly `phi`,
the run-mismatch indicator at `y` minus the open-interval debt.  The
well-formedness hypotheses are those of the spec's column-script format:
both run lists parse from the current merge position, positions are at most
`kBuildHeight`, and the test stream cannot have finished while the base
stream has not. -/
theorem detectMismatchesGo_prefixSum (n : Nat) :
    ∀ (matched : Bool) (bs ts : Nat) (base test : List (Block × Nat))
      (mm : Nat → Int) (y : Nat),
      base.length + test.length ≤ n →
      RunsOk (max bs ts) base → RunsOk (max bs ts) test →
      bs ≤ kBuildHeight → ts ≤ kBuildHeight →
      (ts = kBuildHeight → kBuildHeight ≤ bs) →
      prefixSum (detectMismatchesGo matched bs ts base test mm) y =
        prefixSum mm y + phi matched bs ts base test y := by
  induction n with
  | zero =>
    intro matched bs ts base test mm y hn hb ht hbs hts hinv2
    by_cases hlt : bs < kBuildHeight
    · exfalso
      have hbase : base = [] := List.eq_nil_of_length_eq_zero (by omega)
      subst hbase
      unfold RunsOk at hb
      have hts' : ts = kBuildHeight := by omega
      have := hinv2 hts'
      omega
    · exact detectMismatchesGo_prefixSum_exit hlt hbs hts
  | succ n ih =>
    intro matched bs ts base test mm y hn hb ht hbs hts hinv2
    by_cases hlt : bs < kBuildHeight
    · cases base with
      | nil =>
        exfalso
        unfold RunsOk at hb
        have hts' : ts = kBuildHeight := by omega
        have := hinv2 hts'
        omega
      | cons r brest =>
        obtain ⟨bb, be⟩ := r
        cases test with
        | nil =>
          exfalso
          unfold RunsOk at ht
          have hts' : ts = kBuildHeight := by omega
          have := hinv2 hts'
          omega
        | cons s trest =>
          obtain ⟨tb, te⟩ := s
          simp only [RunsOk] at hb ht
          obtain ⟨hb1, hb2, hb3, hb4⟩ := hb
          obtain ⟨ht1, ht2, ht3, ht4⟩ := ht
          rw [detectMismatchesGo_cons hlt]
          have hflip : ∀ v : Nat → Int, v = (if matched ≠ decide (bb = tb) then
                mmAdd mm (max bs ts) (if matched then 1 else -1) else mm) →
              prefixSum v y = prefixSum mm y +
                (if (matched ≠ decide (bb = tb)) ∧ max bs ts ≤ y then
                  (if matched = true then 1 else -1) else 0) := by
            intro v hv
            subst hv
            by_cases hf : matched ≠ decide (bb = tb)
            · rw [if_pos hf, prefixSum_mmAdd]
              by_cases hy : max bs ts ≤ y <;> simp [hf, hy]
            · rw [if_neg hf]
              simp [hf]
          rcases le_or_lt be te with hbete | hbete
          · rcases le_or_lt te be with htebe | htebe
            · -- both runs end together
              rw [if_pos hbete, if_pos htebe]
              have hte : be = te := by omega
              subst hte
              rw [ih _ be be brest trest _ y (by simp at hn ⊢; omega)
                (by simpa using hb4) (by simpa using ht4) hb3 hb3 (fun h => le_of_eq h.symm)]
              rw [hflip _ rfl]
              rw [phi_step matched bb tb bs ts be be
                ((bb, be) :: brest) ((tb, be) :: trest) brest trest y
                (by omega) (by omega)
                (fun u h1 h2 => ⟨runBlock_cons_lt (by omega), runBlock_cons_lt (by omega)⟩)
                (fun u hu => ⟨(runBlock_cons_ge (by omega)).symm,
                  (runBlock_cons_ge (by omega)).symm⟩)]
              ring
            · -- base run ends first
              rw [if_pos hbete, if_neg (by omega : ¬ te ≤ be)]
              have hmaxbe : max be ts = be := by omega
              rw [ih _ be ts brest ((tb, te) :: trest) _ y (by simp at hn ⊢; omega)
                (by rw [hmaxbe]; exact hb4)
                (by rw [hmaxbe]
                    show be < kBuildHeight ∧ be < te ∧ te ≤ kBuildHeight ∧ RunsOk te trest
                    exact ⟨by omega, by omega, ht3, ht4⟩)
                hb3 hts (fun h => absurd h (by omega))]
              rw [hflip _ rfl]
              rw [phi_step matched bb tb bs ts be ts
                ((bb, be) :: brest) ((tb, te) :: trest) brest ((tb, te) :: trest) y
                (by omega) (by omega)
                (fun u h1 h2 => ⟨runBlock_cons_lt (by omega), runBlock_cons_lt (by omega)⟩)
                (fun u hu => ⟨(runBlock_cons_ge (by omega)).symm, rfl⟩)]
              ring
          · -- test run ends first
            rw [if_neg (by omega : ¬ be ≤ te)]
            have hmaxte : max bs te = te := by omega
            rw [ih _ bs te ((bb, be) :: brest) trest _ y (by simp at hn ⊢; omega)
              (by rw [hmaxte]
                  show te < kBuildHeight ∧ te < be ∧ be ≤ kBuildHeight ∧ RunsOk be brest
                  exact ⟨by omega, by omega, hb3, hb4⟩)
              (by rw [hmaxte]; exact ht4)
              hbs (by omega) (fun h => absurd h (by omega))]
            rw [hflip _ rfl]
            rw [phi_step matched bb tb bs ts bs te
              ((bb, be) :: brest) ((tb, te) :: trest) ((bb, be) :: brest) trest y
              (by omega) (by omega)
              (fun u h1 h2 => ⟨runBlock_cons_lt (by omega), runBlock_cons_lt (by omega)⟩)
              (fun u hu => ⟨rfl, (runBlock_cons_ge (by omega)).symm⟩)]
            ring
    · exact detectMismatchesGo_prefixSum_exit hlt hbs hts

/-- For two well-formed run lists, one `detectMismatches` call adds to the
prefix sum at `y` exactly the indicator of a run mismatch at `y`. -/
theorem detectMismatches_prefixSum (base test : List (Block × Nat)) (mm : Nat → Int)
    (y : Nat) (hb : RunsOk 0 base) (ht : RunsOk 0 test) :
    prefixSum (detectMismatches base test mm) y =
      prefixSum mm y +
        (if y < kBuildHeight ∧ runBlock base y ≠ runBlock test y then 1 else 0) := by
  unfold detectMismatches
  rw [detectMismatchesGo_prefixSum (base.length + test.length) true 0 0 base test mm y
    (le_refl _) (by simpa using hb) (by simpa using ht)
    (Nat.zero_le _) (Nat.zero_le _)
    (fun h => by simp [kBuildHeight, kWorldHeight] at h)]
  unfold phi
  simp

theorem setColumn_voxels (registry : Registry) (c : ChunkE)
    (x z start count : Nat) (block : Block) (d : Cell) :
    (setColumn registry c x z start count block).voxels d =
      if d.x = x ∧ d.z = z ∧ start ≤ d.y ∧ d.y < start + count then block
      else c.voxels d := by
  unfold setColumn
  rw [updateHeightmap_voxels]

/-- The run-laying loop writes the run list's block at every covered height
of the column and touches nothing else. -/
theorem loadColumnRuns_voxels (registry : Registry) (x z : Nat) :
    ∀ (runs : List (Block × Nat)) (start : Nat) (c : ChunkE) (d : Cell),
      RunsOk start runs →
      (loadColumnRuns registry c x z start runs).voxels d =
        if d.x = x ∧ d.z = z ∧ start ≤ d.y ∧ d.y < kBuildHeight then
          runBlock runs d.y
        else c.voxels d := by
  intro runs
  induction runs with
  | nil =>
    intro start c d hr
    unfold RunsOk at hr
    unfold loadColumnRuns
    rw [if_neg (fun hc => by omega)]
  | cons r rest ih =>
    intro start c d hr
    obtain ⟨bb, be⟩ := r
    simp only [RunsOk] at hr
    obtain ⟨h1, h2, h3, h4⟩ := hr
    unfold loadColumnRuns
    rw [ih be _ d h4, setColumn_voxels]
    by_cases hcol : d.x = x ∧ d.z = z
    · obtain ⟨hx, hz⟩ := hcol
      by_cases hy : be ≤ d.y ∧ d.y < kBuildHeight
      · rw [if_pos ⟨hx, hz, hy.1, hy.2⟩, if_pos ⟨hx, hz, by omega, hy.2⟩,
          runBlock_cons_ge hy.1]
      · rw [if_neg (fun hc => hy ⟨hc.2.2.1, hc.2.2.2⟩)]
        by_cases hy2 : start ≤ d.y ∧ d.y < start + (be - start)
        · rw [if_pos ⟨hx, hz, hy2.1, hy2.2⟩, if_pos ⟨hx, hz, hy2.1, by omega⟩,
            runBlock_cons_lt (by omega)]
        · rw [if_neg (fun hc => hy2 ⟨hc.2.2.1, hc.2.2.2⟩),
            if_neg (fun hc => ?_)]
          rcases Nat.lt_or_ge d.y be with hlt | hge
          · exact hy2 ⟨hc.2.2.1, by omega⟩
          · exact hy ⟨hge, hc.2.2.2⟩
    · have hnc : ∀ (P : Prop), ¬(d.x = x ∧ d.z = z ∧ P) :=
        fun P hc => hcol ⟨hc.1, hc.2.1⟩
      rw [if_neg (hnc _), if_neg (hnc _), if_neg (hnc _)]

/-- The decoration loop leaves every cell whose height carries no decoration
of this column unchanged. -/
theorem loadColumnDecos_voxels (registry : Registry) (x z : Nat) :
    ∀ (decos : List (Block × Nat)) (c : ChunkE) (d : Cell),
      (∀ q ∈ decos, ¬(d.x = x ∧ d.z = z ∧ q.2 = d.y)) →
      (loadColumnDecos registry c x z decos).voxels d = c.voxels d := by
  intro decos
  induction decos with
  | nil => intro c d _; rfl
  | cons q rest ih =>
    intro c d hq
    unfold loadColumnDecos
    rw [ih _ d (fun p hp => hq p (List.mem_cons_of_mem _ hp))]
    rw [updateInstance_voxels, setColumn_voxels]
    rw [if_neg (fun hc =>
      hq q (List.mem_cons_self q rest) ⟨hc.1, hc.2.1, by omega⟩)]

theorem mem_kColumnOrder {x z : Nat} (hx : x < kChunkWidth)
    (hz : z < kChunkWidth) : (x, z) ∈ kColumnOrder := by
  unfold kColumnOrder
  rw [List.mem_join]
  exact ⟨(List.range kChunkWidth).map (fun x => (x, z)),
    List.mem_map_of_mem _ (List.mem_range.mpr hz),
    List.mem_map_of_mem _ (List.mem_range.mpr hx)⟩

theorem kColumnOrder_bounds {p : Nat × Nat} (hp : p ∈ kColumnOrder) :
    p.1 < kChunkWidth ∧ p.2 < kChunkWidth := by
  unfold kColumnOrder at hp
  rw [List.mem_join] at hp
  obtain ⟨l, hl, hpl⟩ := hp
  obtain ⟨zz, hzz, rfl⟩ := List.mem_map.mp hl
  obtain ⟨xx, hxx, rfl⟩ := List.mem_map.mp hpl
  exact ⟨List.mem_range.mp hxx, List.mem_range.mp hzz⟩

/-- The column fold of `Chunk::load` on voxels: a cell below the build
height in a visited column holds its own run list's block; every other cell
keeps the initial value. -/
theorem load_fold_voxels (registry : Registry) (cols : Nat → Nat → ColumnScript) :
    ∀ (L : List (Nat × Nat)) (c : ChunkE) (d : Cell),
      (∀ p ∈ L, RunsOk 0 (cols p.1 p.2).runs) →
      (∀ p ∈ L, ∀ q ∈ (cols p.1 p.2).decorations, q.2 ≠ d.y) →
      (L.foldl (fun c xz =>
          loadColumnDecos registry
            (loadColumnRuns registry c xz.1 xz.2 0 (cols xz.1 xz.2).runs)
            xz.1 xz.2 (cols xz.1 xz.2).decorations) c).voxels d =
        if (d.x, d.z) ∈ L ∧ d.y < kBuildHeight then
          runBlock (cols d.x d.z).runs d.y
        else c.voxels d := by
  intro L
  induction L with
  | nil => intro c d _ _; simp
  | cons p L ih =>
    intro c d hr hd
    simp only [List.foldl_cons]
    rw [ih _ d (fun q hq => hr q (List.mem_cons_of_mem _ hq))
      (fun q hq => hd q (List.mem_cons_of_mem _ hq))]
    have hlay : (loadColumnDecos registry
        (loadColumnRuns registry c p.1 p.2 0 (cols p.1 p.2).runs)
        p.1 p.2 (cols p.1 p.2).decorations).voxels d =
        if d.x = p.1 ∧ d.z = p.2 ∧ d.y < kBuildHeight then
          runBlock (cols p.1 p.2).runs d.y
        else c.voxels d := by
      rw [loadColumnDecos_voxels registry p.1 p.2 (cols p.1 p.2).decorations _ d
        (fun q hq hc => hd p (List.mem_cons_self p L) q hq hc.2.2)]
      rw [loadColumnRuns_voxels registry p.1 p.2 (cols p.1 p.2).runs 0 c d
        (hr p (List.mem_cons_self p L))]
      simp [Nat.zero_le]
    rw [hlay]
    by_cases hmem : (d.x, d.z) ∈ L ∧ d.y < kBuildHeight
    · rw [if_pos hmem, if_pos ⟨List.mem_cons_of_mem _ hmem.1, hmem.2⟩]
    · rw [if_neg hmem]
      by_cases hp : d.x = p.1 ∧ d.z = p.2 ∧ d.y < kBuildHeight
      · have hpe : (d.x, d.z) = p := by
          rw [hp.1, hp.2.1]
        rw [if_pos hp, if_pos ⟨by rw [hpe]; exact List.mem_cons_self p L, hp.2.2⟩,
          hp.1, hp.2.1]
      · rw [if_neg hp, if_neg (fun hc => ?_)]
        rcases List.mem_cons.mp hc.1 with hcp | hcl
        · exact hp ⟨congrArg Prod.fst hcp, congrArg Prod.snd hcp, hc.2⟩
        · exact hmem ⟨hcl, hc.2⟩

/-- The per-column, per-height mismatch contribution of `Chunk::load`: the
indicator of a run mismatch against the base column plus the number of
decorations at that height. -/
def columnMismatch (base : List (Block × Nat)) (s : ColumnScript) (y : Nat) :
    Int :=
  (if y < kBuildHeight ∧ runBlock base y ≠ runBlock s.runs y then 1 else 0) +
    (decosAt s.decorations y : Int)

theorem columnMismatch_nonneg (base : List (Block × Nat)) (s : ColumnScript)
    (y : Nat) : 0 ≤ columnMismatch base s y := by
  unfold columnMismatch
  split_ifs <;> omega

/-- The column fold of `Chunk::load` on the mismatch counters: the prefix
sum at `y` is the sum of the per-column contributions. -/
theorem load_fold_mm (cols : Nat → Nat → ColumnScript) (y : Nat)
    (hb : RunsOk 0 (cols 0 0).runs) :
    ∀ (L : List (Nat × Nat)) (mm : Nat → Int),
      (∀ p ∈ L, RunsOk 0 (cols p.1 p.2).runs) →
      prefixSum (L.foldl (fun mm xz =>
          decoMismatches (cols xz.1 xz.2).decorations
            (detectMismatches (cols 0 0).runs (cols xz.1 xz.2).runs mm)) mm) y =
        prefixSum mm y +
          (L.map (fun p => columnMismatch (cols 0 0).runs (cols p.1 p.2) y)).sum := by
  intro L
  induction L with
  | nil => intro mm _; simp
  | cons p L ih =>
    intro mm hr
    simp only [List.foldl_cons, List.map_cons, List.sum_cons]
    rw [ih _ (fun q hq => hr q (List.mem_cons_of_mem _ hq))]
    rw [prefixSum_decoMismatches,
      detectMismatches_prefixSum _ _ _ _ hb (hr p (List.mem_cons_self p L))]
    unfold columnMismatch
    ring

theorem list_sum_zero_of_nonneg {l : List Int} (h0 : ∀ x ∈ l, 0 ≤ x)
    (hs : l.sum = 0) : ∀ x ∈ l, x = 0 := by
  induction l with
  | nil => simp
  | cons a l ih =>
    have ha : 0 ≤ a := h0 a (List.mem_cons_self a l)
    have hl : 0 ≤ l.sum := by
      clear hs ih ha
      induction l with
      | nil => simp
      | cons b l ih2 =>
        have hb : 0 ≤ b := h0 b (by simp)
        have := ih2 (fun x hx => h0 x (by simp at hx ⊢; tauto))
        simp only [List.sum_cons]
        omega
    simp only [List.sum_cons] at hs
    intro x hx
    rcases List.mem_cons.mp hx with rfl | hxl
    · omega
    · exact ih (fun v hv => h0 v (List.mem_cons_of_mem _ hv)) (by omega) x hxl

/-- C7: after `Chunk::load` parses a well-formed column script (each
column's run list has strictly increasing `end_y` values terminating at
`kBuildHeight = kWorldHeight - 1`, followed by per-column decorations), for
every height `y < kWorldHeight`: if `equilevels[y]` is set then every voxel
of the chunk's `y`-plane equals `voxels(0, y, 0)`; `equilevels` is derived
by prefix-summing the per-height mismatch counter and testing it for
zero. -/
theorem load_equilevels_sound (registry : Registry)
    (cols : Nat → Nat → ColumnScript)
    (hruns : ∀ x z, x < kChunkWidth → z < kChunkWidth →
      RunsOk 0 (cols x z).runs)
    (y : Nat) (hy : y < kWorldHeight)
    (heq : (load registry cols).equilevels y = true)
    (x z : Nat) (hx : x < kChunkWidth) (hz : z < kChunkWidth) :
    (load registry cols).voxels ⟨x, y, z⟩ =
      (load registry cols).voxels ⟨0, y, 0⟩ := by
  have h00 : RunsOk 0 (cols 0 0).runs := hruns 0 0 (by decide) (by decide)
  have hL : ∀ p ∈ kColumnOrder, RunsOk 0 (cols p.1 p.2).runs := by
    intro p hp
    have := kColumnOrder_bounds hp
    exact hruns p.1 p.2 this.1 this.2
  -- the prefix sum of the accumulated mismatch counters vanishes at y
  have heq2 : decide (prefixSum
      (kColumnOrder.foldl
        (fun mm xz =>
          decoMismatches (cols xz.1 xz.2).decorations
            (detectMismatches (cols 0 0).runs (cols xz.1 xz.2).runs mm))
        (fun _ => 0))
      y = 0) = true := heq
  have hzero := of_decide_eq_true heq2
  have hsum := load_fold_mm cols y h00 kColumnOrder (fun _ => 0) hL
  rw [hzero] at hsum
  have hps0 : prefixSum (fun _ => (0 : Int)) y = 0 := by simp [prefixSum]
  rw [hps0, zero_add] at hsum
  -- every column's contribution at height y is zero
  have hall : ∀ p ∈ kColumnOrder,
      columnMismatch (cols 0 0).runs (cols p.1 p.2) y = 0 := by
    intro p hp
    exact list_sum_zero_of_nonneg
      (fun v hv => by
        obtain ⟨q, _, rfl⟩ := List.mem_map.mp hv
        exact columnMismatch_nonneg _ _ _)
      hsum.symm _ (List.mem_map_of_mem _ hp)
  have hcomp : ∀ p ∈ kColumnOrder,
      (¬(y < kBuildHeight ∧
        runBlock (cols 0 0).runs y ≠ runBlock (cols p.1 p.2).runs y)) ∧
      decosAt (cols p.1 p.2).decorations y = 0 := by
    intro p hp
    have h := hall p hp
    unfold columnMismatch at h
    split_ifs at h with hcc
    · exact ⟨fun _ => by omega, by omega⟩
    · exact ⟨hcc, by omega⟩
  -- no column has a decoration at height y
  have hnodeco : ∀ p ∈ kColumnOrder,
      ∀ q ∈ (cols p.1 p.2).decorations, q.2 ≠ y := by
    intro p hp q hq hqy
    have hd0 := (hcomp p hp).2
    unfold decosAt at hd0
    rw [List.length_eq_zero] at hd0
    have : q ∈ (cols p.1 p.2).decorations.filter (fun d => decide (d.2 = y)) :=
      List.mem_filter.mpr ⟨hq, by simp [hqy]⟩
    rw [hd0] at this
    simp at this
  -- the voxel value of every in-range column at height y
  have hvox : ∀ (x' z' : Nat), x' < kChunkWidth → z' < kChunkWidth →
      (load registry cols).voxels ⟨x', y, z'⟩ =
        (if y < kBuildHeight then runBlock (cols x' z').runs y
         else Block.Air) := by
    intro x' z' hx' hz'
    have hload : (load registry cols).voxels =
        (kColumnOrder.foldl (fun c xz =>
          loadColumnDecos registry
            (loadColumnRuns registry c xz.1 xz.2 0 (cols xz.1 xz.2).runs)
            xz.1 xz.2 (cols xz.1 xz.2).decorations) emptyChunkE).voxels := rfl
    rw [hload, load_fold_voxels registry cols kColumnOrder emptyChunkE
      ⟨x', y, z'⟩ hL (fun p hp q hq => hnodeco p hp q hq)]
    by_cases hyb : y < kBuildHeight
    · rw [if_pos ⟨mem_kColumnOrder hx' hz', hyb⟩, if_pos hyb]
    · rw [if_neg (fun hc => hyb hc.2), if_neg hyb]
      rfl
  rw [hvox x z hx hz, hvox 0 0 (by decide) (by decide)]
  by_cases hyb : y < kBuildHeight
  · rw [if_pos hyb, if_pos hyb]
    have h1 := (hcomp (x, z) (mem_kColumnOrder hx hz)).1
    by_cases heqr : runBlock (cols 0 0).runs y = runBlock (cols x z).runs y
    · exact heqr.symm
    · exact (h1 ⟨hyb, heqr⟩).elim
  · rw [if_neg hyb, if_neg hyb]

/-- The uniform column script used as a witness: every column is a single
run of Stone up to the build height with no decorations. -/
def witnessCols : Nat → Nat → ColumnScript :=
  fun _ _ => ⟨[(Block.Stone, kBuildHeight)], []⟩

theorem load_equilevels_sound_witness :
    (load witnessRegistry witnessCols).equilevels 3 = true ∧
    (load witnessRegistry witnessCols).voxels ⟨5, 3, 7⟩ =
      (load witnessRegistry witnessCols).voxels ⟨0, 3, 0⟩ := by
  have hconst : RunsOk 0 [(Block.Stone, kBuildHeight)] := by decide
  have hruns : ∀ x z, x < kChunkWidth → z < kChunkWidth →
      RunsOk 0 (witnessCols x z).runs := fun _ _ _ _ => hconst
  have h00 := hruns 0 0 (by decide) (by decide)
  have hL : ∀ p ∈ kColumnOrder, RunsOk 0 (witnessCols p.1 p.2).runs :=
    fun p _ => h00
  have heq : (load witnessRegistry witnessCols).equilevels 3 = true := by
    have hsum := load_fold_mm witnessCols 3 h00 kColumnOrder (fun _ => 0) hL
    show decide (prefixSum
      (kColumnOrder.foldl
        (fun mm xz =>
          decoMismatches (witnessCols xz.1 xz.2).decorations
            (detectMismatches (witnessCols 0 0).runs
              (witnessCols xz.1 xz.2).runs mm))
        (fun _ => 0))
      3 = 0) = true
    rw [decide_eq_true_eq, hsum]
    have hmap : ∀ v ∈ kColumnOrder.map
        (fun p => columnMismatch (witnessCols 0 0).runs (witnessCols p.1 p.2) 3),
        v = 0 := by
      intro v hv
      obtain ⟨q, _, rfl⟩ := List.mem_map.mp hv
      unfold columnMismatch witnessCols decosAt
      simp
    rw [List.sum_eq_zero hmap]
    simp [prefixSum]
  exact ⟨heq, load_equilevels_sound witnessRegistry witnessCols hruns 3
    (by decide) heq 5 7 (by decide) (by decide)⟩

/-! ### C8: `Circle` visit order and the `World::remesh` scheduler
(`engine.cpp`)

`Circle` enumerates the grid points `(i, j)` with `-floor ≤ i, j ≤ floor`
and `normSquared ≤ radius²` (`i` outer, `j` inner), then stable-sorts them
by ascending `normSquared`.  Since `normSquared` is an integer, only the
integer threshold `bound = ⌊radius²⌋` matters to the filter, so the model
takes `bound : Int`.  The stable sort is modelled with insertion sort; the
properties proved do not depend on the order of equal keys.  `World::remesh`
walks the sorted points offset by the circle's center and runs the budgeted
mesh/relight body on each; the per-chunk state reads (`chunks.get`,
`needsRemesh`, `needsRelight`) are abstracted as predicates on points. -/

/-- The index range `-floor ≤ i ≤ floor` of the `Circle` constructor
loops. -/
def circleRange (floor : Nat) : List Int :=
  (List.range (2 * floor + 1)).map (fun k => (k : Int) - floor)

/-- The circle's grid points in construction order, skipping points with
`normSquared > bound`. -/
def circlePointsUnsorted (floor : Nat) (bound : Int) : List Point :=
  ((circleRange floor).map (fun i =>
    ((circleRange floor).map (fun j => (⟨i, j⟩ : Point))).filter
      (fun p => decide (p.normSquared ≤ bound)))).join

/-- The comparison of the `stable_sort` call: ascending `normSquared`. -/
def distLE (a b : Point) : Prop := a.normSquared ≤ b.normSquared

instance : DecidableRel distLE := fun a b =>
  inferInstanceAs (Decidable (a.normSquared ≤ b.normSquared))

instance : IsTotal Point distLE := ⟨fun a b => le_total _ _⟩

instance : IsTrans Point distLE := ⟨fun _ _ _ h1 h2 => le_trans h1 h2⟩

/-- `Circle::points` after sorting by ascending `normSquared`. -/
def circlePoints (floor : Nat) (bound : Int) : List Point :=
  List.insertionSort distLE (circlePointsUnsorted floor bound)

/-- What the `World::remesh` body did to one visited slot. -/
inductive RAct
  | skip
  | mesh
  | light
deriving DecidableEq

/-- The result of the `chunks.each` loop of `World::remesh`: the trace of
visited slots with their actions, the final relight and remesh counters,
and whether the loop exited through the early-stop branch. -/
structure RemeshResult where
  trace : List (Point × RAct)
  lit : Nat
  meshed : Nat
  stopped : Bool

/-- Record one more visited slot in front of a loop result. -/
def RemeshResult.push (e : Point × RAct) (r : RemeshResult) : RemeshResult :=
  ⟨e :: r.trace, r.lit, r.meshed, r.stopped⟩

/-- The `chunks.each` loop body of `World::remesh`: `total` counts the
slots already visited (the source increments its 1-based `total` at the
start of the body, so the current slot is number `total + 1`);
`canRelight = lit < kNumChunksToLightPerFrame`;
`canRemesh = total + 1 ≤ 9 ∨ meshed < kNumChunksToMeshPerFrame`; if neither
holds the loop stops before touching the slot; otherwise an absent chunk is
skipped, a chunk needing a remesh is remeshed when `canRemesh`, and else a
chunk needing a relight is relit when `canRelight`. -/
def remeshLoop (pres nr nl : Point → Bool) :
    Nat → Nat → Nat → List Point → RemeshResult
  | lit, meshed, _, [] => ⟨[], lit, meshed, false⟩
  | lit, meshed, total, p :: rest =>
      if ¬(lit < kNumChunksToLightPerFrame ∨ total + 1 ≤ 9 ∨
            meshed < kNumChunksToMeshPerFrame) then
        ⟨[], lit, meshed, true⟩
      else if pres p then
        if (total + 1 ≤ 9 ∨ meshed < kNumChunksToMeshPerFrame) ∧ nr p = true then
          RemeshResult.push (p, RAct.mesh)
            (remeshLoop pres nr nl lit (meshed + 1) (total + 1) rest)
        else if lit < kNumChunksToLightPerFrame ∧ nl p = true then
          RemeshResult.push (p, RAct.light)
            (remeshLoop pres nr nl (lit + 1) meshed (total + 1) rest)
        else
          RemeshResult.push (p, RAct.skip)
            (remeshLoop pres nr nl lit meshed (total + 1) rest)
      else
        RemeshResult.push (p, RAct.skip)
          (remeshLoop pres nr nl lit meshed (total + 1) rest)

/-- `World::remesh`: run the loop over the circle's points offset by its
center, starting with zeroed counters. -/
def remesh (pres nr nl : Point → Bool) (floor : Nat) (bound : Int)
    (center : Point) : RemeshResult :=
  remeshLoop pres nr nl 0 0 0
    ((circlePoints floor bound).map (fun q => Point.add q center))

/-- The number of remeshed slots in a trace. -/
def meshCount (tr : List (Point × RAct)) : Nat :=
  (tr.filter (fun e => decide (e.2 = RAct.mesh))).length

/-- The number of relit slots in a trace. -/
def lightCount (tr : List (Point × RAct)) : Nat :=
  (tr.filter (fun e => decide (e.2 = RAct.light))).length

/-- The loop visits the points of its list in order: the trace's points are
an initial segment of the point list. -/
theorem remeshLoop_trace_points (pres nr nl : Point → Bool) :
    ∀ (pts : List Point) (lit meshed total : Nat),
      (remeshLoop pres nr nl lit meshed total pts).trace.map Prod.fst =
        pts.take (remeshLoop pres nr nl lit meshed total pts).trace.length := by
  intro pts
  induction pts with
  | nil => intro lit meshed total; rfl
  | cons p rest ih =>
    intro lit meshed total
    unfold remeshLoop
    split_ifs <;>
      simp [RemeshResult.push, ih]

/-- The final counters are the initial ones plus the event counts of the
trace. -/
theorem remeshLoop_counts (pres nr nl : Point → Bool) :
    ∀ (pts : List Point) (lit meshed total : Nat),
      (remeshLoop pres nr nl lit meshed total pts).lit =
        lit + lightCount (remeshLoop pres nr nl lit meshed total pts).trace ∧
      (remeshLoop pres nr nl lit meshed total pts).meshed =
        meshed + meshCount (remeshLoop pres nr nl lit meshed total pts).trace := by
  intro pts
  induction pts with
  | nil => intro lit meshed total; simp [remeshLoop, lightCount, meshCount]
  | cons p rest ih =>
    intro lit meshed total
    unfold remeshLoop
    split_ifs with h1 h2 h3 h4
    · obtain ⟨ha, hb⟩ := ih lit (meshed + 1) (total + 1)
      simp [RemeshResult.push, lightCount, meshCount] at ha hb ⊢
      omega
    · obtain ⟨ha, hb⟩ := ih (lit + 1) meshed (total + 1)
      simp [RemeshResult.push, lightCount, meshCount] at ha hb ⊢
      omega
    · obtain ⟨ha, hb⟩ := ih lit meshed (total + 1)
      simp [RemeshResult.push, lightCount, meshCount] at ha hb ⊢
      omega
    · obtain ⟨ha, hb⟩ := ih lit meshed (total + 1)
      simp [RemeshResult.push, lightCount, meshCount] at ha hb ⊢
      omega
    · simp [lightCount, meshCount]

/-- The relight budget: the final `lit` counter never exceeds
`kNumChunksToLightPerFrame`. -/
theorem remeshLoop_lit_le (pres nr nl : Point → Bool) :
    ∀ (pts : List Point) (lit meshed total : Nat),
      lit ≤ kNumChunksToLightPerFrame →
      (remeshLoop pres nr nl lit meshed total pts).lit ≤
        kNumChunksToLightPerFrame := by
  intro pts
  induction pts with
  | nil => intro lit meshed total h; exact h
  | cons p rest ih =>
    intro lit meshed total h
    unfold remeshLoop
    split_ifs with h1 h2 h3 h4
    · exact ih lit (meshed + 1) (total + 1) h
    · refine ih (lit + 1) meshed (total + 1) ?_
      have h5 := h4.1
      simp only [kNumChunksToLightPerFrame] at h5 ⊢
      omega
    · exact ih lit meshed (total + 1) h
    · exact ih lit meshed (total + 1) h
    · exact h

/-- Once nine slots are past and the mesh budget is spent, no further slot
is remeshed. -/
theorem remeshLoop_meshCount_zero (pres nr nl : Point → Bool) :
    ∀ (pts : List Point) (lit meshed total : Nat),
      9 ≤ total → kNumChunksToMeshPerFrame ≤ meshed →
      meshCount (remeshLoop pres nr nl lit meshed total pts).trace = 0 := by
  intro pts
  induction pts with
  | nil => intro lit meshed total _ _; rfl
  | cons p rest ih =>
    intro lit meshed total ht hm
    unfold remeshLoop
    split_ifs with h1 h2 h3 h4
    · exfalso
      rcases h3.1 with hc | hc
      · omega
      · simp only [kNumChunksToMeshPerFrame] at hm hc
        omega
    · have h := ih (lit + 1) meshed (total + 1) (by omega) hm
      simpa [RemeshResult.push, meshCount] using h
    · have h := ih lit meshed (total + 1) (by omega) hm
      simpa [RemeshResult.push, meshCount] using h
    · have h := ih lit meshed (total + 1) (by omega) hm
      simpa [RemeshResult.push, meshCount] using h
    · rfl

/-- Once nine slots are past, at most `kNumChunksToMeshPerFrame` further
slots are remeshed. -/
theorem remeshLoop_meshCount_le (pres nr nl : Point → Bool) :
    ∀ (pts : List Point) (lit meshed total : Nat), 9 ≤ total →
      meshCount (remeshLoop pres nr nl lit meshed total pts).trace ≤
        kNumChunksToMeshPerFrame := by
  intro pts
  induction pts with
  | nil => intro lit meshed total _; simp [remeshLoop, meshCount]
  | cons p rest ih =>
    intro lit meshed total ht
    unfold remeshLoop
    split_ifs with h1 h2 h3 h4
    · have hm0 : kNumChunksToMeshPerFrame ≤ meshed + 1 := by
        rcases h3.1 with hc | hc
        · omega
        · simp only [kNumChunksToMeshPerFrame] at hc ⊢
          omega
      have h0 := remeshLoop_meshCount_zero pres nr nl rest lit (meshed + 1)
        (total + 1) (by omega) hm0
      simpa [RemeshResult.push, meshCount, kNumChunksToMeshPerFrame] using h0
    · have h := ih (lit + 1) meshed (total + 1) (by omega)
      simpa [RemeshResult.push, meshCount] using h
    · have h := ih lit meshed (total + 1) (by omega)
      simpa [RemeshResult.push, meshCount] using h
    · have h := ih lit meshed (total + 1) (by omega)
      simpa [RemeshResult.push, meshCount] using h
    · simp [meshCount]

/-- At most `kNumChunksToMeshPerFrame` slots beyond the nine nearest are
remeshed, for any starting position `total ≤ 9`. -/
theorem remeshLoop_meshCount_drop (pres nr nl : Point → Bool) :
    ∀ (pts : List Point) (lit meshed total : Nat), total ≤ 9 →
      meshCount ((remeshLoop pres nr nl lit meshed total pts).trace.drop
          (9 - total)) ≤ kNumChunksToMeshPerFrame := by
  intro pts
  induction pts with
  | nil => intro lit meshed total _; simp [remeshLoop, meshCount]
  | cons p rest ih =>
    intro lit meshed total ht
    rcases Nat.lt_or_ge total 9 with hlt | hge
    · have hdd : 9 - total = (9 - (total + 1)) + 1 := by omega
      unfold remeshLoop
      split_ifs with h1 h2 h3 h4
      · have h := ih lit (meshed + 1) (total + 1) (by omega)
        simp only [RemeshResult.push]
        rw [hdd, List.drop_succ_cons]
        exact h
      · have h := ih (lit + 1) meshed (total + 1) (by omega)
        simp only [RemeshResult.push]
        rw [hdd, List.drop_succ_cons]
        exact h
      · have h := ih lit meshed (total + 1) (by omega)
        simp only [RemeshResult.push]
        rw [hdd, List.drop_succ_cons]
        exact h
      · have h := ih lit meshed (total + 1) (by omega)
        simp only [RemeshResult.push]
        rw [hdd, List.drop_succ_cons]
        exact h
      · simp [meshCount]
    · have h := remeshLoop_meshCount_le pres nr nl (p :: rest) lit meshed total hge
      have h0 : 9 - total = 0 := by omega
      rw [h0, List.drop_zero]
      exact h

/-- Among the nine nearest visited slots, every present chunk that needs a
remesh is remeshed. -/
theorem remeshLoop_first9 (pres nr nl : Point → Bool) :
    ∀ (pts : List Point) (lit meshed total i : Nat) (p : Point) (a : RAct),
      total + i + 1 ≤ 9 →
      (remeshLoop pres nr nl lit meshed total pts).trace[i]? = some (p, a) →
      pres p = true → nr p = true → a = RAct.mesh := by
  intro pts
  induction pts with
  | nil =>
    intro lit meshed total i p a _ hget _ _
    simp [remeshLoop] at hget
  | cons q rest ih =>
    intro lit meshed total i p a hle hget hpres hnr
    unfold remeshLoop at hget
    split_ifs at hget with h1 h2 h3 h4
    · simp only [RemeshResult.push] at hget
      cases i with
      | zero =>
        simp only [List.getElem?_cons_zero, Option.some.injEq,
          Prod.mk.injEq] at hget
        exact hget.2.symm
      | succ j =>
        simp only [List.getElem?_cons_succ] at hget
        exact ih lit (meshed + 1) (total + 1) j p a (by omega) hget hpres hnr
    · simp only [RemeshResult.push] at hget
      cases i with
      | zero =>
        simp only [List.getElem?_cons_zero, Option.some.injEq,
          Prod.mk.injEq] at hget
        exact (h3 ⟨Or.inl (by omega), by rw [hget.1]; exact hnr⟩).elim
      | succ j =>
        simp only [List.getElem?_cons_succ] at hget
        exact ih (lit + 1) meshed (total + 1) j p a (by omega) hget hpres hnr
    · simp only [RemeshResult.push] at hget
      cases i with
      | zero =>
        simp only [List.getElem?_cons_zero, Option.some.injEq,
          Prod.mk.injEq] at hget
        exact (h3 ⟨Or.inl (by omega), by rw [hget.1]; exact hnr⟩).elim
      | succ j =>
        simp only [List.getElem?_cons_succ] at hget
        exact ih lit meshed (total + 1) j p a (by omega) hget hpres hnr
    · simp only [RemeshResult.push] at hget
      cases i with
      | zero =>
        simp only [List.getElem?_cons_zero, Option.some.injEq,
          Prod.mk.injEq] at hget
        exact (h2 (by rw [hget.1]; exact hpres)).elim
      | succ j =>
        simp only [List.getElem?_cons_succ] at hget
        exact ih lit meshed (total + 1) j p a (by omega) hget hpres hnr
    · simp at hget

/-- The loop's exit condition: it exits through the early-stop branch only
when the relight and remesh budgets are both spent and at least nine slots
have been visited; otherwise it consumes every point. -/
theorem remeshLoop_stop_spec (pres nr nl : Point → Bool) :
    ∀ (pts : List Point) (lit meshed total : Nat),
      ((remeshLoop pres nr nl lit meshed total pts).stopped = true →
        kNumChunksToLightPerFrame ≤ (remeshLoop pres nr nl lit meshed total pts).lit ∧
        kNumChunksToMeshPerFrame ≤ (remeshLoop pres nr nl lit meshed total pts).meshed ∧
        9 ≤ total + (remeshLoop pres nr nl lit meshed total pts).trace.length) ∧
      ((remeshLoop pres nr nl lit meshed total pts).stopped = false →
        (remeshLoop pres nr nl lit meshed total pts).trace.length = pts.length) := by
  intro pts
  induction pts with
  | nil =>
    intro lit meshed total
    exact ⟨fun h => by simp [remeshLoop] at h, fun _ => rfl⟩
  | cons q rest ih =>
    intro lit meshed total
    unfold remeshLoop
    split_ifs with h1 h2 h3 h4
    · obtain ⟨ga, gb⟩ := ih lit (meshed + 1) (total + 1)
      constructor
      · intro hs
        obtain ⟨c1, c2, c3⟩ := ga hs
        refine ⟨c1, c2, ?_⟩
        simp only [RemeshResult.push, List.length_cons]
        omega
      · intro hs
        have := gb hs
        simp only [RemeshResult.push, List.length_cons]
        omega
    · obtain ⟨ga, gb⟩ := ih (lit + 1) meshed (total + 1)
      constructor
      · intro hs
        obtain ⟨c1, c2, c3⟩ := ga hs
        refine ⟨c1, c2, ?_⟩
        simp only [RemeshResult.push, List.length_cons]
        omega
      · intro hs
        have := gb hs
        simp only [RemeshResult.push, List.length_cons]
        omega
    · obtain ⟨ga, gb⟩ := ih lit meshed (total + 1)
      constructor
      · intro hs
        obtain ⟨c1, c2, c3⟩ := ga hs
        refine ⟨c1, c2, ?_⟩
        simp only [RemeshResult.push, List.length_cons]
        omega
      · intro hs
        have := gb hs
        simp only [RemeshResult.push, List.length_cons]
        omega
    · obtain ⟨ga, gb⟩ := ih lit meshed (total + 1)
      constructor
      · intro hs
        obtain ⟨c1, c2, c3⟩ := ga hs
        refine ⟨c1, c2, ?_⟩
        simp only [RemeshResult.push, List.length_cons]
        omega
      · intro hs
        have := gb hs
        simp only [RemeshResult.push, List.length_cons]
        omega
    · push_neg at h1
      constructor
      · intro _
        refine ⟨h1.1, h1.2.2, ?_⟩
        simp only [List.length_nil]
        omega
      · intro hs
        simp at hs

/-- No premature stop: every slot that was processed was processed because
at its entry the relight budget was open, or it was among the nine nearest,
or the mesh budget was open. -/
theorem remeshLoop_progress (pres nr nl : Point → Bool) :
    ∀ (pts : List Point) (lit meshed total i : Nat),
      i < (remeshLoop pres nr nl lit meshed total pts).trace.length →
      lit + lightCount ((remeshLoop pres nr nl lit meshed total pts).trace.take i) <
          kNumChunksToLightPerFrame ∨
      total + i + 1 ≤ 9 ∨
      meshed + meshCount ((remeshLoop pres nr nl lit meshed total pts).trace.take i) <
          kNumChunksToMeshPerFrame := by
  intro pts
  induction pts with
  | nil =>
    intro lit meshed total i hi
    simp [remeshLoop] at hi
  | cons q rest ih =>
    intro lit meshed total i hi
    unfold remeshLoop at hi ⊢
    split_ifs at hi ⊢ with h1 h2 h3 h4
    · cases i with
      | zero =>
        simpa [lightCount, meshCount] using h1
      | succ j =>
        have hj : j < (remeshLoop pres nr nl lit (meshed + 1) (total + 1)
            rest).trace.length := by
          simpa [RemeshResult.push] using hi
        have h := ih lit (meshed + 1) (total + 1) j hj
        simp only [RemeshResult.push, List.take_succ_cons]
        rcases h with h | h | h
        · left
          simpa [lightCount] using h
        · right; left; omega
        · exfalso
          simp only [kNumChunksToMeshPerFrame] at h
          omega
    · cases i with
      | zero =>
        simpa [lightCount, meshCount] using h1
      | succ j =>
        have hj : j < (remeshLoop pres nr nl (lit + 1) meshed (total + 1)
            rest).trace.length := by
          simpa [RemeshResult.push] using hi
        have h := ih (lit + 1) meshed (total + 1) j hj
        simp only [RemeshResult.push, List.take_succ_cons]
        rcases h with h | h | h
        · left
          simp only [kNumChunksToLightPerFrame] at h ⊢
          simp [lightCount] at h ⊢
          omega
        · right; left; omega
        · right; right
          simpa [meshCount] using h
    · cases i with
      | zero =>
        simpa [lightCount, meshCount] using h1
      | succ j =>
        have hj : j < (remeshLoop pres nr nl lit meshed (total + 1)
            rest).trace.length := by
          simpa [RemeshResult.push] using hi
        have h := ih lit meshed (total + 1) j hj
        simp only [RemeshResult.push, List.take_succ_cons]
        rcases h with h | h | h
        · left
          simpa [lightCount] using h
        · right; left; omega
        · right; right
          simpa [meshCount] using h
    · cases i with
      | zero =>
        simpa [lightCount, meshCount] using h1
      | succ j =>
        have hj : j < (remeshLoop pres nr nl lit meshed (total + 1)
            rest).trace.length := by
          simpa [RemeshResult.push] using hi
        have h := ih lit meshed (total + 1) j hj
        simp only [RemeshResult.push, List.take_succ_cons]
        rcases h with h | h | h
        · left
          simpa [lightCount] using h
        · right; left; omega
        · right; right
          simpa [meshCount] using h
    · simp at hi

theorem point_add_sub (q c : Point) : (Point.add q c).sub c = q := by
  cases q with
  | mk qx qz =>
    cases c with
    | mk cx cz =>
      simp only [Point.add, Point.sub, Point.mk.injEq]
      constructor <;> ring

/-- C8: in one `World::remesh` call, slots are visited in ascending
squared-distance order from the circle's center; every present chunk among
the nine nearest visited slots that needs a remesh is remeshed; beyond the
nine nearest at most `kNumChunksToMeshPerFrame = 1` chunks are remeshed and
in the whole call at most `kNumChunksToLightPerFrame = 4` chunks are relit;
the loop stops early only when both budgets are spent and at least nine
slots have been visited (otherwise it visits every slot), and conversely
every processed slot was processed because its entry check still passed. -/
theorem remesh_schedule (pres nr nl : Point → Bool) (floor : Nat) (bound : Int)
    (center : Point) :
    ((remesh pres nr nl floor bound center).trace.map Prod.fst =
        ((circlePoints floor bound).map (fun q => Point.add q center)).take
          (remesh pres nr nl floor bound center).trace.length) ∧
    List.Pairwise (fun a b =>
        (Point.sub a center).normSquared ≤ (Point.sub b center).normSquared)
      ((remesh pres nr nl floor bound center).trace.map Prod.fst) ∧
    (∀ (i : Nat) (p : Point) (a : RAct), i < 9 →
      (remesh pres nr nl floor bound center).trace[i]? = some (p, a) →
      pres p = true → nr p = true → a = RAct.mesh) ∧
    meshCount ((remesh pres nr nl floor bound center).trace.drop 9) ≤
      kNumChunksToMeshPerFrame ∧
    lightCount (remesh pres nr nl floor bound center).trace ≤
      kNumChunksToLightPerFrame ∧
    ((remesh pres nr nl floor bound center).stopped = true →
      kNumChunksToLightPerFrame ≤
        lightCount (remesh pres nr nl floor bound center).trace ∧
      kNumChunksToMeshPerFrame ≤
        meshCount (remesh pres nr nl floor bound center).trace ∧
      9 ≤ (remesh pres nr nl floor bound center).trace.length) ∧
    ((remesh pres nr nl floor bound center).stopped = false →
      (remesh pres nr nl floor bound center).trace.length =
        (circlePoints floor bound).length) ∧
    (∀ i, i < (remesh pres nr nl floor bound center).trace.length →
      lightCount ((remesh pres nr nl floor bound center).trace.take i) <
          kNumChunksToLightPerFrame ∨
      i + 1 ≤ 9 ∨
      meshCount ((remesh pres nr nl floor bound center).trace.take i) <
          kNumChunksToMeshPerFrame) := by
  have hpts : List.Pairwise (fun a b =>
      (Point.sub a center).normSquared ≤ (Point.sub b center).normSquared)
      ((circlePoints floor bound).map (fun q => Point.add q center)) := by
    refine List.pairwise_map.mpr ?_
    have hs : List.Sorted distLE (circlePoints floor bound) :=
      List.sorted_insertionSort distLE _
    refine hs.imp ?_
    intro a b h
    rw [point_add_sub, point_add_sub]
    exact h
  have h1 := remeshLoop_trace_points pres nr nl
    ((circlePoints floor bound).map (fun q => Point.add q center)) 0 0 0
  have hcounts := remeshLoop_counts pres nr nl
    ((circlePoints floor bound).map (fun q => Point.add q center)) 0 0 0
  refine ⟨h1, ?_, ?_, ?_, ?_, ?_, ?_, ?_⟩
  · rw [show (remesh pres nr nl floor bound center).trace.map Prod.fst =
      ((circlePoints floor bound).map (fun q => Point.add q center)).take
        (remesh pres nr nl floor bound center).trace.length from h1]
    exact List.Pairwise.sublist (List.take_sublist _ _) hpts
  · intro i p a hi9 hget hp hn
    exact remeshLoop_first9 pres nr nl
      ((circlePoints floor bound).map (fun q => Point.add q center)) 0 0 0 i p a
      (by omega) hget hp hn
  · have h := remeshLoop_meshCount_drop pres nr nl
      ((circlePoints floor bound).map (fun q => Point.add q center)) 0 0 0
      (by omega)
    simpa using h
  · have h2 := remeshLoop_lit_le pres nr nl
      ((circlePoints floor bound).map (fun q => Point.add q center)) 0 0 0
      (Nat.zero_le _)
    rw [hcounts.1] at h2
    simpa using h2
  · intro hs
    obtain ⟨c1, c2, c3⟩ := (remeshLoop_stop_spec pres nr nl
      ((circlePoints floor bound).map (fun q => Point.add q center)) 0 0 0).1 hs
    rw [hcounts.1] at c1
    rw [hcounts.2] at c2
    exact ⟨by simpa using c1, by simpa using c2, by simpa using c3⟩
  · intro hs
    have h := (remeshLoop_stop_spec pres nr nl
      ((circlePoints floor bound).map (fun q => Point.add q center)) 0 0 0).2 hs
    rwa [List.length_map] at h
  · intro i hi
    have h := remeshLoop_progress pres nr nl
      ((circlePoints floor bound).map (fun q => Point.add q center)) 0 0 0 i hi
    simpa using h

theorem remesh_schedule_witness :
    lightCount (remesh (fun _ => true) (fun _ => true) (fun _ => true)
      1 1 ⟨0, 0⟩).trace ≤ kNumChunksToLightPerFrame :=
  (remesh_schedule (fun _ => true) (fun _ => true) (fun _ => true)
    1 1 ⟨0, 0⟩).2.2.2.2.1

end VoxelsEngine
